import Mathlib

/-!
Verification of the FlatValueMap repository (`include/flat_value_map.h`,
`include/light_flat_value_map.h`, `include/flat_value_map_handle.h`).

The containers are shallowly embedded:

* `std::unordered_map<K, V>` becomes an association list `List (Nat × Nat)`.
  Iteration order of an `unordered_map` is unspecified; the embedding fixes
  it to list order, with freshly emplaced entries appended at the end.
  Lookups, key erasure and in-place value updates through iterators become
  the `alookup` / `aerase` / `aset` operations on the first (unique)
  occurrence of a key.
* `std::vector<Value>` becomes `List α`; `push_back` appends, `pop_back` is
  `List.dropLast`, `std::swap` of two elements is `lswap`.
* Handles (`FvmHandle` / `LfvmHandle`) wrap a `uint32_t id` and compare by
  that id alone, so a handle is embedded as its `Nat` id; the 32-bit
  wraparound of `++internalIdCounter` is kept explicit as `% 2 ^ 32`.
* An `assert` firing, or an operation that would dereference an `end()`
  iterator or throw from `unordered_map::at`, makes the embedded operation
  return `none` (the call aborts instead of completing).
-/

namespace Cof

/-- Modulus of the `uint32_t` static `internalIdCounter`: `2 ^ 32`. -/
def W : Nat := 2 ^ 32

/-! ## Association list operations (the `unordered_map` embedding) -/

/-- `unordered_map::find` followed by reading `->second`: value of the first
entry with the given key. -/
def alookup : List (Nat × Nat) → Nat → Option Nat
  | [], _ => none
  | e :: rest, k => if e.1 = k then some e.2 else alookup rest k

/-- `unordered_map::erase` of a key: removes the first entry with that key. -/
def aerase : List (Nat × Nat) → Nat → List (Nat × Nat)
  | [], _ => []
  | e :: rest, k => if e.1 = k then rest else e :: aerase rest k

/-- Writing `it->second = v` through an iterator obtained by `find(k)` or
`at(k)`: replaces the value of the first entry with key `k`; what the C++
would do when the key is absent (dereference `end()` / throw) never arises on
the consistent states quantified over below, and is embedded as a no-op. -/
def aset : List (Nat × Nat) → Nat → Nat → List (Nat × Nat)
  | [], _, _ => []
  | e :: rest, k, v => if e.1 = k then (k, v) :: rest else e :: aset rest k v

/-- `unordered_map_emplace_and_return_iterator` (container_utils.h): emplace
that `assert`s the insertion happened, i.e. aborts (`none`) when the key is
already present. -/
def aemplace (l : List (Nat × Nat)) (k v : Nat) : Option (List (Nat × Nat)) :=
  if (alookup l k).isSome then none else some (l ++ [(k, v)])

/-- A plain `unordered_map::emplace` whose result is discarded
(`LightFlatValueMap::push_back`): silently does nothing when the key is
already present. -/
def aemplaceSilent (l : List (Nat × Nat)) (k v : Nat) : List (Nat × Nat) :=
  if (alookup l k).isSome then l else l ++ [(k, v)]

/-- The linear scan of `LightFlatValueMap::dense_to_sparse`: key of the first
entry whose value equals `t`. -/
def afindByValue : List (Nat × Nat) → Nat → Option Nat
  | [], _ => none
  | e :: rest, t => if e.2 = t then some e.1 else afindByValue rest t

/-- Writing `std_last_element_it->second = v` through the iterator returned
by the `dense_to_sparse` scan: updates the first entry whose value is `t`. -/
def asetFirstByValue : List (Nat × Nat) → Nat → Nat → List (Nat × Nat)
  | [], _, _ => []
  | e :: rest, t, v =>
    if e.2 = t then (e.1, v) :: rest else e :: asetFirstByValue rest t v

/-- `std::swap(vec[i], vec[j])`. -/
def lswap (l : List α) (i j : Nat) : List α :=
  match l[i]?, l[j]? with
  | some a, some b => (l.set i b).set j a
  | _, _ => l

/-! ## `cof::FlatValueMap` (flat_value_map.h), the fast-erase variant

`SparseHandle` is embedded as its `uint32_t` id, `Value` as a type
parameter `α`.  `back_element_sparse_to_dense_iterator`,
`back_element_dense_to_sparse_iterator` and
`back_element_cached_iterator_valid` collapse to an `Option (Nat × Nat)`
holding the (handle id, dense index) pair the two cached iterators point
at: both are always set together, at `push_back`, to the entries of the
just-inserted back element. -/

structure FlatValueMap (α : Type) where
  sparse_to_dense : List (Nat × Nat)
  dense_to_sparse : List (Nat × Nat)
  dense_vector : List α
  backCache : Option (Nat × Nat)
  internalIdCounter : Nat
  deriving DecidableEq

namespace FlatValueMap

/-- A default-constructed `FlatValueMap`, with the static `internalIdCounter`
at its initial value `0`. -/
def empty : FlatValueMap α := ⟨[], [], [], none, 0⟩

/-- `FlatValueMap::push_back` (all three of `push_back(const Value&)`,
`push_back(Value&&)` and `emplace_back` have identical bookkeeping).
Returns the new container and the returned handle's id; `none` when one of
the asserting emplaces aborts. -/
def push_back (m : FlatValueMap α) (t : α) : Option (FlatValueMap α × Nat) :=
  let element_index := m.dense_vector.length
  let element_id := (m.internalIdCounter + 1) % W
  match aemplace m.sparse_to_dense element_id element_index with
  | none => none
  | some std =>
    match aemplace m.dense_to_sparse element_index element_id with
    | none => none
    | some dts =>
      some (⟨std, dts, m.dense_vector ++ [t],
             some (element_id, element_index), element_id⟩, element_id)

/-- Resolution of `back_dts_it` (and its key): the cached back-element
iterators when `back_element_cached_iterator_valid`, otherwise
`dense_to_sparse.find(dense_vector.size() - 1)`; `none` when that find
returns `end()` (every later use of it would be undefined behaviour). -/
def backResolve (m : FlatValueMap α) (last : Nat) : Option (Nat × Nat) :=
  match m.backCache with
  | some c => some c
  | none => (alookup m.dense_to_sparse last).map (fun bh => (bh, last))

/-- `FlatValueMap::erase(HandleType)`: `none` when the
`assert(removing_sparse_to_dense_it != sparse_to_dense.end())` fires or the
back-element iterator resolution would dereference `end()`. -/
def erase (m : FlatValueMap α) (handleToDelete : Nat) : Option (FlatValueMap α) :=
  match alookup m.sparse_to_dense handleToDelete with
  | none => none
  | some removed_element_index =>
    let last := m.dense_vector.length - 1
    match backResolve m last with
    | none => none
    | some back =>
      if removed_element_index = last then
        some ⟨aerase m.sparse_to_dense handleToDelete,
              aerase m.dense_to_sparse back.2,
              m.dense_vector.dropLast, none, m.internalIdCounter⟩
      else
        some ⟨aerase (aset m.sparse_to_dense back.1 removed_element_index) handleToDelete,
              aerase (aset m.dense_to_sparse removed_element_index back.1) back.2,
              (lswap m.dense_vector removed_element_index last).dropLast,
              none, m.internalIdCounter⟩

/-- `FlatValueMap::erase(const_iterator)`: converts the dense position back
to a handle through `dense_to_sparse` (asserting it is found) and delegates
to `erase(HandleType)`. -/
def eraseAt (m : FlatValueMap α) (element_index : Nat) : Option (FlatValueMap α) :=
  match alookup m.dense_to_sparse element_index with
  | none => none
  | some handle => m.erase handle

/-- The loop `for (HandleType handle : handles) { erase(handle); }` at the
end of `FlatValueMap::erase(first, last)`. -/
def eraseEach (m : FlatValueMap α) : List Nat → Option (FlatValueMap α)
  | [] => some m
  | h :: rest =>
    match m.erase h with
    | none => none
    | some m₁ => m₁.eraseEach rest

/-- `FlatValueMap::erase(const_iterator first, const_iterator last)`: first
snapshots the handle of every position in `[offset, offset + count)` (each
lookup asserting success), then erases the snapshotted handles one by one. -/
def eraseRange (m : FlatValueMap α) (offset count : Nat) : Option (FlatValueMap α) :=
  match (List.range count).mapM (fun i => alookup m.dense_to_sparse (offset + i)) with
  | none => none
  | some handles => m.eraseEach handles

/-- `FlatValueMap::clear`: empties the three containers; it does not touch
`internalIdCounter` and does not reset `back_element_cached_iterator_valid`. -/
def clear (m : FlatValueMap α) : FlatValueMap α :=
  ⟨[], [], [], m.backCache, m.internalIdCounter⟩

/-- `FlatValueMap::contains`. -/
def contains (m : FlatValueMap α) (handle : Nat) : Bool :=
  (alookup m.sparse_to_dense handle).isSome

/-- `FlatValueMap::operator[]`: resolves the handle through `sparse_to_dense`
and indexes `dense_vector`; both asserts (`found` and `vector_in_range`) are
embedded as `none`. -/
def lookup (m : FlatValueMap α) (handle : Nat) : Option α :=
  match alookup m.sparse_to_dense handle with
  | none => none
  | some element_index => m.dense_vector[element_index]?

/-- `FlatValueMap::size`. -/
def size (m : FlatValueMap α) : Nat := m.dense_vector.length

/-- Consistency invariant of a `FlatValueMap`.  Conjuncts 3 and 4 are the
documented bijection `ReverseIndex[P] == H ↔ SparseIndex[H] == P`; the
others tie the two maps to the dense vector and state validity of the
cached back-element iterators (the cache may dangle after `clear`, which
does not reset the valid flag, but then `sparse_to_dense` is empty and no
operation can reach the cached path). -/
def Inv (m : FlatValueMap α) : Prop :=
  (m.sparse_to_dense.map Prod.fst).Nodup ∧
  (m.dense_to_sparse.map Prod.fst).Nodup ∧
  (∀ e ∈ m.sparse_to_dense, alookup m.dense_to_sparse e.2 = some e.1) ∧
  (∀ e ∈ m.dense_to_sparse, alookup m.sparse_to_dense e.2 = some e.1) ∧
  (∀ e ∈ m.sparse_to_dense, e.2 < m.dense_vector.length) ∧
  (∀ p ∈ List.range m.dense_vector.length, (alookup m.dense_to_sparse p).isSome) ∧
  (∀ c ∈ m.backCache,
     m.sparse_to_dense = [] ∨
     (c.2 + 1 = m.dense_vector.length ∧
      alookup m.sparse_to_dense c.1 = some c.2 ∧
      alookup m.dense_to_sparse c.2 = some c.1))

instance (m : FlatValueMap α) : Decidable m.Inv := by
  unfold Inv
  infer_instance

end FlatValueMap

/-! ## `cof::LightFlatValueMap` (light_flat_value_map.h), the light variant -/

structure LightFlatValueMap (α : Type) where
  sparse_to_dense : List (Nat × Nat)
  dense_vector : List α
  internalIdCounter : Nat
  deriving DecidableEq

namespace LightFlatValueMap

/-- A default-constructed `LightFlatValueMap` with counter `0`. -/
def empty : LightFlatValueMap α := ⟨[], [], 0⟩

/-- `LightFlatValueMap::push_back` / `emplace_back`: appends to
`dense_vector` and `emplace`s the mapping; the plain `emplace` silently does
nothing when the id is already a key, and the handle id is returned
regardless. -/
def push_back (m : LightFlatValueMap α) (t : α) : LightFlatValueMap α × Nat :=
  let element_index := m.dense_vector.length
  let element_id := (m.internalIdCounter + 1) % W
  (⟨aemplaceSilent m.sparse_to_dense element_id element_index,
    m.dense_vector ++ [t], element_id⟩, element_id)

/-- `LightFlatValueMap::dense_to_sparse`: linear scan of `sparse_to_dense`
for the first entry whose mapped index equals `denseIndex`; `none` models
the `assert(false)` fall-through returning `end()`. -/
def dense_to_sparse (m : LightFlatValueMap α) (denseIndex : Nat) : Option Nat :=
  afindByValue m.sparse_to_dense denseIndex

/-- `LightFlatValueMap::erase(handle_t)` in a checked (assertion-enabled)
build: `none` when `assert(sparse_to_dense_it != sparse_to_dense.end())`
fires, or when the `dense_to_sparse` scan runs off the end (its
`assert(false)`). -/
def erase (m : LightFlatValueMap α) (handleToRemove : Nat) :
    Option (LightFlatValueMap α) :=
  match alookup m.sparse_to_dense handleToRemove with
  | none => none
  | some element_index =>
    if element_index = m.dense_vector.length - 1 then
      some ⟨aerase m.sparse_to_dense handleToRemove,
            m.dense_vector.dropLast, m.internalIdCounter⟩
    else
      let last_element := m.dense_vector.length - 1
      match m.dense_to_sparse last_element with
      | none => none
      | some _ =>
        some ⟨aerase (asetFirstByValue m.sparse_to_dense last_element element_index)
                handleToRemove,
              (lswap m.dense_vector element_index last_element).dropLast,
              m.internalIdCounter⟩

/-- `LightFlatValueMap::erase(handle_t)` with assertions compiled out
(`NDEBUG`): the explicit `if (sparse_to_dense_it != sparse_to_dense.end())`
guard still skips all mutation for an unknown handle and the function
returns normally with the container unchanged. -/
def eraseRelease (m : LightFlatValueMap α) (handleToRemove : Nat) :
    LightFlatValueMap α :=
  match alookup m.sparse_to_dense handleToRemove with
  | none => m
  | some element_index =>
    if element_index = m.dense_vector.length - 1 then
      ⟨aerase m.sparse_to_dense handleToRemove,
       m.dense_vector.dropLast, m.internalIdCounter⟩
    else
      let last_element := m.dense_vector.length - 1
      ⟨aerase (asetFirstByValue m.sparse_to_dense last_element element_index)
          handleToRemove,
       (lswap m.dense_vector element_index last_element).dropLast,
       m.internalIdCounter⟩

/-- `LightFlatValueMap::clear`: does not touch `internalIdCounter`. -/
def clear (m : LightFlatValueMap α) : LightFlatValueMap α :=
  ⟨[], [], m.internalIdCounter⟩

/-- `LightFlatValueMap::contains`. -/
def contains (m : LightFlatValueMap α) (handle : Nat) : Bool :=
  (alookup m.sparse_to_dense handle).isSome

/-- `LightFlatValueMap::operator[]` (asserts embedded as `none`). -/
def lookup (m : LightFlatValueMap α) (handle : Nat) : Option α :=
  match alookup m.sparse_to_dense handle with
  | none => none
  | some element_index => m.dense_vector[element_index]?

/-- `LightFlatValueMap::size`. -/
def size (m : LightFlatValueMap α) : Nat := m.dense_vector.length

/-- The structural part of the light container's consistency: distinct
handle ids, distinct mapped positions, and all positions in range. -/
def WeakInv (m : LightFlatValueMap α) : Prop :=
  (m.sparse_to_dense.map Prod.fst).Nodup ∧
  (m.sparse_to_dense.map Prod.snd).Nodup ∧
  (∀ e ∈ m.sparse_to_dense, e.2 < m.dense_vector.length)

/-- Full consistency of a light container: `WeakInv` plus surjectivity of
the position map onto the dense range (every dense slot is owned by some
live handle, so the erase scan always succeeds). -/
def Inv (m : LightFlatValueMap α) : Prop :=
  WeakInv m ∧
  (∀ p ∈ List.range m.dense_vector.length, (afindByValue m.sparse_to_dense p).isSome)

instance (m : LightFlatValueMap α) : Decidable m.WeakInv := by
  unfold WeakInv
  infer_instance

instance (m : LightFlatValueMap α) : Decidable m.Inv := by
  unfold Inv
  infer_instance

end LightFlatValueMap

/-! ## Operation sequences

An abstract operation against a container: an insertion (`push_back`,
`emplace_back`), an erase by handle, or a `clear`.  Running a sequence of
operations threads the container state; a `none` result means some call in
the sequence aborted on a failed assertion. -/

inductive Op (α : Type) where
  | pushOp : α → Op α
  | eraseOp : Nat → Op α
  | clearOp : Op α
  deriving DecidableEq

namespace FlatValueMap

/-- One operation against a `FlatValueMap`. -/
def runOp (m : FlatValueMap α) : Op α → Option (FlatValueMap α)
  | Op.pushOp v => (m.push_back v).map Prod.fst
  | Op.eraseOp h => m.erase h
  | Op.clearOp => some m.clear

/-- A sequence of operations against a `FlatValueMap`. -/
def run (m : FlatValueMap α) : List (Op α) → Option (FlatValueMap α)
  | [] => some m
  | op :: rest =>
    match m.runOp op with
    | none => none
    | some m₁ => m₁.run rest

/-- A sequence of operations, additionally logging the handle returned by
every insertion, in order. -/
def runLog (m : FlatValueMap α) : List (Op α) → Option (FlatValueMap α × List Nat)
  | [] => some (m, [])
  | Op.pushOp v :: rest =>
    match m.push_back v with
    | none => none
    | some r =>
      match runLog r.1 rest with
      | none => none
      | some s => some (s.1, r.2 :: s.2)
  | Op.eraseOp h :: rest =>
    match m.erase h with
    | none => none
    | some m₁ => runLog m₁ rest
  | Op.clearOp :: rest => runLog m.clear rest

end FlatValueMap

namespace LightFlatValueMap

/-- A `push_back` on the light container under the side condition that the
allocated id does not collide with a live handle — the condition that holds
automatically while fewer than `2 ^ 32` insertions have been performed for
the element type. -/
def push_back_fresh (m : LightFlatValueMap α) (t : α) :
    Option (LightFlatValueMap α × Nat) :=
  if (alookup m.sparse_to_dense ((m.internalIdCounter + 1) % W)).isSome then none
  else some (m.push_back t)

/-- Operation sequences against a `LightFlatValueMap`, with insertions
restricted to fresh ids (see `push_back_fresh`). -/
def runFresh (m : LightFlatValueMap α) : List (Op α) → Option (LightFlatValueMap α)
  | [] => some m
  | Op.pushOp v :: rest =>
    match m.push_back_fresh v with
    | none => none
    | some r => r.1.runFresh rest
  | Op.eraseOp h :: rest =>
    match m.erase h with
    | none => none
    | some m₁ => m₁.runFresh rest
  | Op.clearOp :: rest => m.clear.runFresh rest

end LightFlatValueMap

/-! ## Concrete operation sequences exercising the 32-bit id wraparound -/

/-- One `push_back` immediately followed by `erase` of the returned handle,
on a `FlatValueMap` of `Unit` values. -/
def pushEraseStep (m : FlatValueMap Unit) : Option (FlatValueMap Unit) :=
  match m.push_back () with
  | none => none
  | some r => r.1.erase r.2

/-- `n` push/erase pairs starting from a default-constructed container. -/
def runPairs : Nat → Option (FlatValueMap Unit)
  | 0 => some FlatValueMap.empty
  | n + 1 =>
    match runPairs n with
    | none => none
    | some m => pushEraseStep m

/-- The handle id issued by the `n`-th push of `runPairs` (the counter value
after `n` pairs, since each push returns the incremented counter and the
erase leaves it untouched). -/
def issuedAt (n : Nat) : Option Nat := (runPairs n).map FlatValueMap.internalIdCounter

/-- `n` insertions into a light container, the `k`-th inserting the value
`k - 1` (so the dense vector after `n` pushes is `List.range n`). -/
def lightPushN : Nat → LightFlatValueMap Nat
  | 0 => LightFlatValueMap.empty
  | n + 1 => ((lightPushN n).push_back n).1

/-! ## Association list lemmas -/

theorem alookup_cons (e : Nat × Nat) (l : List (Nat × Nat)) (k : Nat) :
    alookup (e :: l) k = if e.1 = k then some e.2 else alookup l k := rfl

theorem mem_of_alookup_eq_some {l : List (Nat × Nat)} {k v : Nat}
    (h : alookup l k = some v) : (k, v) ∈ l := by
  induction l with
  | nil => simp [alookup] at h
  | cons e rest ih =>
    rw [alookup_cons] at h
    by_cases he : e.1 = k
    · simp only [he, if_pos rfl] at h
      cases h
      rw [← he]
      simp
    · simp only [if_neg he] at h
      exact List.mem_cons_of_mem _ (ih h)

theorem alookup_isSome_iff_mem_keys {l : List (Nat × Nat)} {k : Nat} :
    (alookup l k).isSome ↔ k ∈ l.map Prod.fst := by
  induction l with
  | nil => simp [alookup]
  | cons e rest ih =>
    rw [alookup_cons]
    by_cases he : e.1 = k
    · simp [he]
    · simp only [if_neg he, List.map_cons, List.mem_cons, ih]
      constructor
      · exact fun h => Or.inr h
      · rintro (h | h)
        · exact absurd h.symm he
        · exact h

theorem alookup_eq_none_iff {l : List (Nat × Nat)} {k : Nat} :
    alookup l k = none ↔ k ∉ l.map Prod.fst := by
  rw [← alookup_isSome_iff_mem_keys, Option.isSome_iff_exists]
  cases alookup l k <;> simp

theorem alookup_eq_some_of_mem {l : List (Nat × Nat)} {k v : Nat}
    (hnd : (l.map Prod.fst).Nodup) (hmem : (k, v) ∈ l) :
    alookup l k = some v := by
  induction l with
  | nil => cases hmem
  | cons e rest ih =>
    rw [List.map_cons, List.nodup_cons] at hnd
    rw [alookup_cons]
    rcases List.mem_cons.1 hmem with h | h
    · subst h
      simp
    · have hk : e.1 ≠ k := by
        intro hek
        exact hnd.1 (hek ▸ (List.mem_map.2 ⟨(k, v), h, rfl⟩))
      rw [if_neg hk]
      exact ih hnd.2 h

theorem alookup_append_left {l₁ l₂ : List (Nat × Nat)} {k v : Nat}
    (h : alookup l₁ k = some v) : alookup (l₁ ++ l₂) k = some v := by
  induction l₁ with
  | nil => simp [alookup] at h
  | cons e rest ih =>
    rw [alookup_cons] at h
    rw [List.cons_append, alookup_cons]
    by_cases he : e.1 = k
    · simpa [he] using h
    · rw [if_neg he] at h ⊢
      exact ih h

theorem alookup_append_right {l₁ l₂ : List (Nat × Nat)} {k : Nat}
    (h : alookup l₁ k = none) : alookup (l₁ ++ l₂) k = alookup l₂ k := by
  induction l₁ with
  | nil => rfl
  | cons e rest ih =>
    rw [alookup_cons] at h
    by_cases he : e.1 = k
    · simp [he] at h
    · rw [List.cons_append, alookup_cons, if_neg he]
      rw [if_neg he] at h
      exact ih h

theorem aerase_sublist (l : List (Nat × Nat)) (k : Nat) :
    (aerase l k).Sublist l := by
  induction l with
  | nil => simp [aerase]
  | cons e rest ih =>
    show (if e.1 = k then rest else e :: aerase rest k).Sublist (e :: rest)
    by_cases he : e.1 = k
    · rw [if_pos he]
      exact List.sublist_cons_self e rest
    · rw [if_neg he]
      exact ih.cons₂ e

theorem keys_nodup_aerase {l : List (Nat × Nat)} {k : Nat}
    (hnd : (l.map Prod.fst).Nodup) : ((aerase l k).map Prod.fst).Nodup :=
  hnd.sublist ((aerase_sublist l k).map Prod.fst)

theorem alookup_aerase_ne {l : List (Nat × Nat)} {k x : Nat} (hx : x ≠ k) :
    alookup (aerase l k) x = alookup l x := by
  induction l with
  | nil => rfl
  | cons e rest ih =>
    show alookup (if e.1 = k then rest else e :: aerase rest k) x = _
    by_cases he : e.1 = k
    · rw [if_pos he, alookup_cons, if_neg (by rw [he]; exact fun h => hx h.symm)]
    · rw [if_neg he, alookup_cons, alookup_cons, ih]

theorem alookup_aerase_self {l : List (Nat × Nat)} {k : Nat}
    (hnd : (l.map Prod.fst).Nodup) : alookup (aerase l k) k = none := by
  induction l with
  | nil => rfl
  | cons e rest ih =>
    rw [List.map_cons, List.nodup_cons] at hnd
    show alookup (if e.1 = k then rest else e :: aerase rest k) k = none
    by_cases he : e.1 = k
    · rw [if_pos he, alookup_eq_none_iff]
      rw [he] at hnd
      exact hnd.1
    · rw [if_neg he, alookup_cons, if_neg he]
      exact ih hnd.2

theorem keys_aset (l : List (Nat × Nat)) (k v : Nat) :
    (aset l k v).map Prod.fst = l.map Prod.fst := by
  induction l with
  | nil => rfl
  | cons e rest ih =>
    show ((if e.1 = k then (k, v) :: rest else e :: aset rest k v).map Prod.fst) = _
    by_cases he : e.1 = k
    · rw [if_pos he]
      simp [he]
    · rw [if_neg he]
      simp [ih]

theorem alookup_aset_ne {l : List (Nat × Nat)} {k v x : Nat} (hx : x ≠ k) :
    alookup (aset l k v) x = alookup l x := by
  induction l with
  | nil => rfl
  | cons e rest ih =>
    show alookup (if e.1 = k then (k, v) :: rest else e :: aset rest k v) x = _
    by_cases he : e.1 = k
    · rw [if_pos he, alookup_cons, alookup_cons, if_neg (fun h => hx h.symm),
        if_neg (by rw [he]; exact fun h => hx h.symm)]
    · rw [if_neg he, alookup_cons, alookup_cons, ih]

theorem alookup_aset_self {l : List (Nat × Nat)} {k v : Nat}
    (hmem : k ∈ l.map Prod.fst) : alookup (aset l k v) k = some v := by
  induction l with
  | nil => cases hmem
  | cons e rest ih =>
    show alookup (if e.1 = k then (k, v) :: rest else e :: aset rest k v) k = _
    by_cases he : e.1 = k
    · rw [if_pos he, alookup_cons, if_pos rfl]
    · rw [if_neg he, alookup_cons, if_neg he]
      rcases List.mem_cons.1 (List.map_cons Prod.fst e rest ▸ hmem) with h | h
      · exact absurd h.symm he
      · exact ih h

theorem afindByValue_isSome_of_mem {l : List (Nat × Nat)} {k t : Nat}
    (hmem : (k, t) ∈ l) : (afindByValue l t).isSome := by
  induction l with
  | nil => cases hmem
  | cons e rest ih =>
    show (if e.2 = t then some e.1 else afindByValue rest t).isSome
    by_cases he : e.2 = t
    · simp [he]
    · rw [if_neg he]
      rcases List.mem_cons.1 hmem with h | h
      · rw [← h] at he
        exact absurd rfl he
      · exact ih h

theorem mem_of_afindByValue_eq_some {l : List (Nat × Nat)} {k t : Nat}
    (h : afindByValue l t = some k) : (k, t) ∈ l := by
  induction l with
  | nil => simp [afindByValue] at h
  | cons e rest ih =>
    show (k, t) ∈ e :: rest
    have h' : (if e.2 = t then some e.1 else afindByValue rest t) = some k := h
    by_cases he : e.2 = t
    · rw [if_pos he] at h'
      cases h'
      rw [← he]
      simp
    · rw [if_neg he] at h'
      exact List.mem_cons_of_mem _ (ih h')

/-- With pairwise-distinct values, at most one entry carries each value. -/
theorem snd_inj_of_nodup {l : List (Nat × Nat)} {x y t : Nat}
    (hv : (l.map Prod.snd).Nodup) (hx : (x, t) ∈ l) (hy : (y, t) ∈ l) :
    x = y := by
  induction l with
  | nil => cases hx
  | cons e rest ih =>
    rw [List.map_cons, List.nodup_cons] at hv
    rcases List.mem_cons.1 hx with h1 | h1 <;> rcases List.mem_cons.1 hy with h2 | h2
    · rw [← h1] at h2
      exact congrArg Prod.fst h2.symm
    · exfalso
      exact hv.1 (by rw [← h1]; exact List.mem_map.2 ⟨(y, t), h2, rfl⟩)
    · exfalso
      exact hv.1 (by rw [← h2]; exact List.mem_map.2 ⟨(x, t), h1, rfl⟩)
    · exact ih hv.2 h1 h2

/-- On a map with distinct keys and distinct values, updating through the
iterator found by a value scan coincides with updating through the key of the
(unique) entry holding that value. -/
theorem asetFirstByValue_eq_aset {l : List (Nat × Nat)} {bh t v : Nat}
    (hk : (l.map Prod.fst).Nodup) (hv : (l.map Prod.snd).Nodup)
    (hmem : (bh, t) ∈ l) : asetFirstByValue l t v = aset l bh v := by
  induction l with
  | nil => cases hmem
  | cons e rest ih =>
    rw [List.map_cons, List.nodup_cons] at hk hv
    show (if e.2 = t then (e.1, v) :: rest else e :: asetFirstByValue rest t v) =
      (if e.1 = bh then (bh, v) :: rest else e :: aset rest bh v)
    by_cases he : e.2 = t
    · have hehd : e = (bh, t) := by
        rcases List.mem_cons.1 hmem with h | h
        · exact h.symm
        · exfalso
          exact hv.1 (by rw [he]; exact List.mem_map.2 ⟨(bh, t), h, rfl⟩)
      rw [if_pos he, hehd, if_pos rfl]
    · have hbt : (bh, t) ∈ rest := by
        rcases List.mem_cons.1 hmem with h | h
        · rw [← h] at he
          exact absurd rfl he
        · exact h
      have heb : e.1 ≠ bh := by
        intro hb
        exact hk.1 (hb ▸ List.mem_map.2 ⟨(bh, t), hbt, rfl⟩)
      rw [if_neg he, if_neg heb, ih hk.2 hv.2 hbt]

/-! ## List lemmas for the dense vector -/

theorem length_lswap (l : List α) (i j : Nat) : (lswap l i j).length = l.length := by
  unfold lswap
  cases hi : l[i]? <;> cases hj : l[j]? <;> simp

theorem getElem?_lswap (l : List α) {i j : Nat} (q : Nat)
    (hi : i < l.length) (hj : j < l.length) :
    (lswap l i j)[q]? = if q = j then l[i]? else if q = i then l[j]? else l[q]? := by
  unfold lswap
  rw [List.getElem?_eq_getElem hi, List.getElem?_eq_getElem hj]
  by_cases hqj : q = j
  · subst hqj
    rw [if_pos rfl, List.getElem?_set_self (by simpa using hj)]
  · rw [if_neg hqj, List.getElem?_set_ne (fun h => hqj h.symm)]
    by_cases hqi : q = i
    · subst hqi
      rw [if_pos rfl, List.getElem?_set_self hi]
    · rw [if_neg hqi, List.getElem?_set_ne (fun h => hqi h.symm)]

theorem getElem?_dropLast (l : List α) (q : Nat) :
    l.dropLast[q]? = if q < l.length - 1 then l[q]? else none := by
  rw [List.dropLast_eq_take]
  by_cases hq : q < l.length - 1
  · rw [if_pos hq, List.getElem?_take_of_lt hq]
  · rw [if_neg hq, List.getElem?_eq_none]
    simpa using Nat.le_of_not_lt hq

/-! ## Lemmas about `FlatValueMap` -/

namespace FlatValueMap

variable {α : Type} {m m' : FlatValueMap α}

theorem Inv.std_nodup (h : m.Inv) : (m.sparse_to_dense.map Prod.fst).Nodup := h.1

theorem Inv.dts_nodup (h : m.Inv) : (m.dense_to_sparse.map Prod.fst).Nodup := h.2.1

theorem Inv.fwd (h : m.Inv) {x p : Nat}
    (hx : alookup m.sparse_to_dense x = some p) :
    alookup m.dense_to_sparse p = some x :=
  h.2.2.1 (x, p) (mem_of_alookup_eq_some hx)

theorem Inv.bwd (h : m.Inv) {p x : Nat}
    (hx : alookup m.dense_to_sparse p = some x) :
    alookup m.sparse_to_dense x = some p :=
  h.2.2.2.1 (p, x) (mem_of_alookup_eq_some hx)

theorem Inv.lt (h : m.Inv) {x p : Nat}
    (hx : alookup m.sparse_to_dense x = some p) :
    p < m.dense_vector.length :=
  h.2.2.2.2.1 (x, p) (mem_of_alookup_eq_some hx)

theorem Inv.surj (h : m.Inv) {p : Nat} (hp : p < m.dense_vector.length) :
    ∃ x, alookup m.dense_to_sparse p = some x := by
  have := h.2.2.2.2.2.1 p (List.mem_range.2 hp)
  exact Option.isSome_iff_exists.1 this

theorem Inv.cacheOk (h : m.Inv) {c : Nat × Nat} (hc : m.backCache = some c)
    (hne : m.sparse_to_dense ≠ []) :
    c.2 + 1 = m.dense_vector.length ∧
    alookup m.sparse_to_dense c.1 = some c.2 ∧
    alookup m.dense_to_sparse c.2 = some c.1 := by
  have := h.2.2.2.2.2.2 c (by rw [Option.mem_def, hc])
  exact this.resolve_left hne

/-- Handles resolve injectively to positions: the forward map composed with
the backward map is the identity on live handles. -/
theorem Inv.inj (h : m.Inv) {x y p : Nat}
    (hx : alookup m.sparse_to_dense x = some p)
    (hy : alookup m.sparse_to_dense y = some p) : x = y := by
  have h1 := h.fwd hx
  have h2 := h.fwd hy
  rw [h1] at h2
  exact Option.some_injective _ h2

theorem sparse_ne_nil_of_lookup (hx : alookup m.sparse_to_dense h' = some p) :
    m.sparse_to_dense ≠ [] := by
  intro hnil
  rw [hnil] at hx
  cases hx

/-- Resolution of the back element's handle and `dense_to_sparse` key: the
cached back-element iterators and the uncached `find` agree on every
consistent, non-empty container. -/
theorem backResolve_spec (hInv : m.Inv) (hne : m.sparse_to_dense ≠ [])
    (hlen : 0 < m.dense_vector.length) :
    ∃ bh, backResolve m (m.dense_vector.length - 1) =
        some (bh, m.dense_vector.length - 1) ∧
      alookup m.sparse_to_dense bh = some (m.dense_vector.length - 1) ∧
      alookup m.dense_to_sparse (m.dense_vector.length - 1) = some bh := by
  cases hc : m.backCache with
  | none =>
    obtain ⟨bh, hbh⟩ := hInv.surj (Nat.sub_lt hlen Nat.one_pos)
    refine ⟨bh, ?_, hInv.bwd hbh, hbh⟩
    unfold backResolve
    rw [hc, hbh]
    rfl
  | some c =>
    obtain ⟨hc1, hc2, hc3⟩ := hInv.cacheOk hc hne
    have hlast : c.2 = m.dense_vector.length - 1 := by omega
    refine ⟨c.1, ?_, by rw [hc2, hlast], by rw [← hlast]; exact hc3⟩
    unfold backResolve
    rw [hc, ← hlast]

/-- Master characterization of `FlatValueMap::erase` on a consistent
container holding the erased handle at position `p`: the erase succeeds, the
swap-erase shrinks the dense vector by one, moves the old back element to
position `p`, rewires the two index maps for the moved element, and drops
the erased handle's entry and the stale back entry. -/
theorem erase_spec (hInv : m.Inv) {h p : Nat}
    (hh : alookup m.sparse_to_dense h = some p) :
    ∃ bh m',
      alookup m.sparse_to_dense bh = some (m.dense_vector.length - 1) ∧
      m.erase h = some m' ∧
      m'.dense_vector.length + 1 = m.dense_vector.length ∧
      (m'.sparse_to_dense.map Prod.fst).Nodup ∧
      (m'.dense_to_sparse.map Prod.fst).Nodup ∧
      (∀ x, alookup m'.sparse_to_dense x =
        if x = h then none
        else if alookup m.sparse_to_dense x = some (m.dense_vector.length - 1)
          then some p
          else alookup m.sparse_to_dense x) ∧
      (∀ q, alookup m'.dense_to_sparse q =
        if q = m.dense_vector.length - 1 then none
        else if q = p then some bh
        else alookup m.dense_to_sparse q) ∧
      (∀ q, m'.dense_vector[q]? =
        if q < m.dense_vector.length - 1 then
          (if q = p then m.dense_vector[m.dense_vector.length - 1]?
           else m.dense_vector[q]?)
        else none) ∧
      m'.backCache = none ∧ m'.internalIdCounter = m.internalIdCounter := by
  have hlt : p < m.dense_vector.length := hInv.lt hh
  have hlen : 0 < m.dense_vector.length := by omega
  obtain ⟨bh, hbr, hbhs, hbhd⟩ :=
    backResolve_spec hInv (sparse_ne_nil_of_lookup hh) hlen
  by_cases hp : p = m.dense_vector.length - 1
  · -- erasing the back element itself: no swap, `bh = h`
    have hbh_eq : bh = h := hInv.inj hbhs (by rw [hh, hp])
    subst hbh_eq
    refine ⟨bh, ⟨aerase m.sparse_to_dense bh, aerase m.dense_to_sparse
        (m.dense_vector.length - 1), m.dense_vector.dropLast, none,
        m.internalIdCounter⟩, hbhs, ?_, ?_, ?_, ?_, ?_, ?_, ?_, rfl, rfl⟩
    · unfold erase
      rw [hh]
      simp only [hbr, if_pos hp]
    · simp only [List.length_dropLast]
      omega
    · exact keys_nodup_aerase hInv.std_nodup
    · exact keys_nodup_aerase hInv.dts_nodup
    · intro x
      by_cases hx : x = bh
      · subst hx
        rw [if_pos rfl]
        exact alookup_aerase_self hInv.std_nodup
      · rw [if_neg hx, alookup_aerase_ne hx]
        have : ¬(alookup m.sparse_to_dense x = some (m.dense_vector.length - 1)) := by
          intro hlast
          exact hx (hInv.inj hlast hbhs)
        rw [if_neg this]
    · intro q
      by_cases hq : q = m.dense_vector.length - 1
      · subst hq
        rw [if_pos rfl]
        exact alookup_aerase_self hInv.dts_nodup
      · rw [if_neg hq, alookup_aerase_ne hq]
        by_cases hqp : q = p
        · exact absurd (hqp.trans hp) hq
        · rw [if_neg hqp]
    · intro q
      rw [getElem?_dropLast]
      by_cases hq : q < m.dense_vector.length - 1
      · rw [if_pos hq, if_pos hq, if_neg (by omega)]
      · rw [if_neg hq, if_neg hq]
  · -- erasing a non-back element: swap with the back element first
    have hbh_ne : bh ≠ h := by
      intro he
      rw [he, hh] at hbhs
      exact hp (Option.some_injective _ hbhs)
    have hmem_bh : bh ∈ m.sparse_to_dense.map Prod.fst :=
      alookup_isSome_iff_mem_keys.1 (by rw [hbhs]; rfl)
    have hmem_p : p ∈ m.dense_to_sparse.map Prod.fst := by
      obtain ⟨x, hx⟩ := hInv.surj hlt
      exact alookup_isSome_iff_mem_keys.1 (by rw [hx]; rfl)
    refine ⟨bh,
      ⟨aerase (aset m.sparse_to_dense bh p) h,
       aerase (aset m.dense_to_sparse p bh) (m.dense_vector.length - 1),
       (lswap m.dense_vector p (m.dense_vector.length - 1)).dropLast, none,
       m.internalIdCounter⟩, hbhs, ?_, ?_, ?_, ?_, ?_, ?_, ?_, rfl, rfl⟩
    · unfold erase
      rw [hh]
      simp only [hbr, if_neg hp]
    · simp only [List.length_dropLast, length_lswap]
      omega
    · exact keys_nodup_aerase (by rw [keys_aset]; exact hInv.std_nodup)
    · exact keys_nodup_aerase (by rw [keys_aset]; exact hInv.dts_nodup)
    · intro x
      by_cases hx : x = h
      · subst hx
        rw [if_pos rfl]
        exact alookup_aerase_self (by rw [keys_aset]; exact hInv.std_nodup)
      · rw [if_neg hx, alookup_aerase_ne hx]
        by_cases hxb : x = bh
        · subst hxb
          rw [alookup_aset_self hmem_bh, hbhs, if_pos rfl]
        · rw [alookup_aset_ne hxb]
          have : ¬(alookup m.sparse_to_dense x = some (m.dense_vector.length - 1)) := by
            intro hlast
            exact hxb (hInv.inj hlast hbhs)
          rw [if_neg this]
    · intro q
      by_cases hq : q = m.dense_vector.length - 1
      · subst hq
        rw [if_pos rfl]
        exact alookup_aerase_self (by rw [keys_aset]; exact hInv.dts_nodup)
      · rw [if_neg hq, alookup_aerase_ne hq]
        by_cases hqp : q = p
        · subst hqp
          rw [alookup_aset_self hmem_p, if_pos rfl]
        · rw [alookup_aset_ne hqp, if_neg hqp]
    · intro q
      rw [getElem?_dropLast]
      simp only [length_lswap]
      by_cases hq : q < m.dense_vector.length - 1
      · rw [if_pos hq, if_pos hq,
          getElem?_lswap m.dense_vector q hlt (Nat.sub_lt hlen Nat.one_pos),
          if_neg (by omega)]
      · rw [if_neg hq, if_neg hq]

/-- Explicit shape of the containers produced by a successful erase (used to
compare against the light variant). -/
theorem erase_explicit (hInv : m.Inv) {h p : Nat}
    (hh : alookup m.sparse_to_dense h = some p) (hm' : m.erase h = some m') :
    ∃ bh, alookup m.sparse_to_dense bh = some (m.dense_vector.length - 1) ∧
      alookup m.dense_to_sparse (m.dense_vector.length - 1) = some bh ∧
      ((p = m.dense_vector.length - 1 ∧
        m'.sparse_to_dense = aerase m.sparse_to_dense h ∧
        m'.dense_vector = m.dense_vector.dropLast) ∨
       (p ≠ m.dense_vector.length - 1 ∧
        m'.sparse_to_dense = aerase (aset m.sparse_to_dense bh p) h ∧
        m'.dense_vector =
          (lswap m.dense_vector p (m.dense_vector.length - 1)).dropLast)) ∧
      m'.internalIdCounter = m.internalIdCounter := by
  have hlt : p < m.dense_vector.length := hInv.lt hh
  have hlen : 0 < m.dense_vector.length := by omega
  obtain ⟨bh, hbr, hbhs, hbhd⟩ :=
    backResolve_spec hInv (sparse_ne_nil_of_lookup hh) hlen
  unfold erase at hm'
  simp only [hh, hbr] at hm'
  by_cases hp : p = m.dense_vector.length - 1
  · rw [if_pos hp] at hm'
    injection hm' with hm'
    subst hm'
    exact ⟨bh, hbhs, hbhd, Or.inl ⟨hp, rfl, rfl⟩, rfl⟩
  · rw [if_neg hp] at hm'
    injection hm' with hm'
    subst hm'
    exact ⟨bh, hbhs, hbhd, Or.inr ⟨hp, rfl, rfl⟩, rfl⟩

/-- Any successful erase leaves `internalIdCounter` untouched (no
consistency assumption needed). -/
theorem erase_counter {h : Nat} (hm' : m.erase h = some m') :
    m'.internalIdCounter = m.internalIdCounter := by
  unfold erase at hm'
  cases hx : alookup m.sparse_to_dense h with
  | none => rw [hx] at hm'; cases hm'
  | some p =>
    simp only [hx] at hm'
    cases hb : backResolve m (m.dense_vector.length - 1) with
    | none =>
      simp only [hb] at hm'
      cases hm'
    | some back =>
      simp only [hb] at hm'
      by_cases hp : p = m.dense_vector.length - 1
      · rw [if_pos hp] at hm'
        injection hm' with hm'
        subst hm'
        rfl
      · rw [if_neg hp] at hm'
        injection hm' with hm'
        subst hm'
        rfl

/-- A successful erase presupposes the handle was found in the sparse map. -/
theorem lookup_isSome_of_erase (hm' : m.erase h' = some m') :
    ∃ p, alookup m.sparse_to_dense h' = some p := by
  unfold erase at hm'
  cases hx : alookup m.sparse_to_dense h' with
  | none => rw [hx] at hm'; cases hm'
  | some p => exact ⟨p, rfl⟩

/-- A successful `erase` preserves the consistency invariant. -/
theorem erase_inv (hInv : m.Inv) (hm' : m.erase h' = some m') : m'.Inv := by
  obtain ⟨p, hp⟩ := lookup_isSome_of_erase hm'
  obtain ⟨bh, m'', hbhs, hm'', hlen, hnds, hndd, hsparse, hdts, hdense, hcache, hctr⟩ :=
    erase_spec hInv hp
  rw [hm''] at hm'
  cases hm'
  have hlt : p < m.dense_vector.length := hInv.lt hp
  refine ⟨hnds, hndd, ?_, ?_, ?_, ?_, ?_⟩
  · -- forward: sparse entry implies matching reverse entry
    rintro ⟨x, q⟩ hmem
    have hx : alookup m'.sparse_to_dense x = some q :=
      alookup_eq_some_of_mem hnds hmem
    rw [hsparse x] at hx
    by_cases hxh : x = h'
    · rw [if_pos hxh] at hx; cases hx
    rw [if_neg hxh] at hx
    by_cases hxl : alookup m.sparse_to_dense x = some (m.dense_vector.length - 1)
    · rw [if_pos hxl] at hx
      injection hx with hq
      subst hq
      have hxbh : x = bh := hInv.inj hxl hbhs
      have hplast : p ≠ m.dense_vector.length - 1 := by
        intro hpe
        exact hxh (hInv.inj hxl (by rw [hp, hpe]))
      show alookup m'.dense_to_sparse p = some x
      rw [hdts p, if_neg hplast, if_pos rfl, hxbh]
    · rw [if_neg hxl] at hx
      have hq_ne_last : q ≠ m.dense_vector.length - 1 := by
        intro hqe
        exact hxl (by rw [hx, hqe])
      have hq_ne_p : q ≠ p := by
        intro hqe
        exact hxh (hInv.inj (by rw [hx, hqe]) hp)
      show alookup m'.dense_to_sparse q = some x
      rw [hdts q, if_neg hq_ne_last, if_neg hq_ne_p]
      exact hInv.fwd hx
  · -- backward: reverse entry implies matching sparse entry
    rintro ⟨q, x⟩ hmem
    have hx : alookup m'.dense_to_sparse q = some x :=
      alookup_eq_some_of_mem hndd hmem
    rw [hdts q] at hx
    by_cases hql : q = m.dense_vector.length - 1
    · rw [if_pos hql] at hx; cases hx
    rw [if_neg hql] at hx
    by_cases hqp : q = p
    · rw [if_pos hqp] at hx
      injection hx with hxbh
      subst hxbh
      have hbh_ne : bh ≠ h' := by
        intro he
        rw [he, hp] at hbhs
        exact hql (hqp.trans (Option.some_injective _ hbhs))
      show alookup m'.sparse_to_dense bh = some q
      rw [hsparse bh, if_neg hbh_ne, if_pos hbhs, hqp]
    · rw [if_neg hqp] at hx
      have hxs : alookup m.sparse_to_dense x = some q := hInv.bwd hx
      have hx_ne : x ≠ h' := by
        intro he
        rw [he, hp] at hxs
        exact hqp (Option.some_injective _ hxs).symm
      have hnl : ¬(alookup m.sparse_to_dense x = some (m.dense_vector.length - 1)) := by
        intro hl
        rw [hxs] at hl
        exact hql (Option.some_injective _ hl)
      show alookup m'.sparse_to_dense x = some q
      rw [hsparse x, if_neg hx_ne, if_neg hnl]
      exact hxs
  · -- positions stay in range of the shrunken dense vector
    rintro ⟨x, q⟩ hmem
    have hx : alookup m'.sparse_to_dense x = some q :=
      alookup_eq_some_of_mem hnds hmem
    rw [hsparse x] at hx
    by_cases hxh : x = h'
    · rw [if_pos hxh] at hx; cases hx
    rw [if_neg hxh] at hx
    by_cases hxl : alookup m.sparse_to_dense x = some (m.dense_vector.length - 1)
    · rw [if_pos hxl] at hx
      injection hx with hq
      subst hq
      have hplast : p ≠ m.dense_vector.length - 1 := by
        intro hpe
        exact hxh (hInv.inj hxl (by rw [hp, hpe]))
      show p < m'.dense_vector.length
      omega
    · rw [if_neg hxl] at hx
      have hq_lt := hInv.lt hx
      have hq_ne_last : q ≠ m.dense_vector.length - 1 := by
        intro hqe
        exact hxl (by rw [hx, hqe])
      show q < m'.dense_vector.length
      omega
  · -- every remaining dense slot keeps a reverse entry
    intro q hq
    rw [List.mem_range] at hq
    rw [hdts q]
    have hql : q ≠ m.dense_vector.length - 1 := by omega
    rw [if_neg hql]
    by_cases hqp : q = p
    · rw [if_pos hqp]
      rfl
    · rw [if_neg hqp]
      obtain ⟨x, hx⟩ := hInv.surj (show q < m.dense_vector.length by omega)
      rw [hx]
      rfl
  · -- the cached back-element iterators were invalidated
    intro c hc
    rw [hcache] at hc
    cases hc

/-- Characterization of a successful `push_back`: the allocated id was fresh
in both maps, all three containers grow by exactly the new entry, and the
cached back-element iterators point at the new element. -/
theorem push_back_spec {t : α} {id : Nat}
    (h : m.push_back t = some (m', id)) :
    alookup m.sparse_to_dense id = none ∧
    alookup m.dense_to_sparse m.dense_vector.length = none ∧
    id = (m.internalIdCounter + 1) % W ∧
    m' = ⟨m.sparse_to_dense ++ [(id, m.dense_vector.length)],
          m.dense_to_sparse ++ [(m.dense_vector.length, id)],
          m.dense_vector ++ [t],
          some (id, m.dense_vector.length), id⟩ := by
  unfold push_back at h
  cases h1 : aemplace m.sparse_to_dense ((m.internalIdCounter + 1) % W)
      m.dense_vector.length with
  | none =>
    simp only [h1] at h
    cases h
  | some std =>
    simp only [h1] at h
    cases h2 : aemplace m.dense_to_sparse m.dense_vector.length
        ((m.internalIdCounter + 1) % W) with
    | none =>
      simp only [h2] at h
      cases h
    | some dts =>
      simp only [h2] at h
      unfold aemplace at h1 h2
      by_cases hc1 : (alookup m.sparse_to_dense ((m.internalIdCounter + 1) % W)).isSome
      · rw [if_pos hc1] at h1
        cases h1
      rw [if_neg hc1] at h1
      by_cases hc2 : (alookup m.dense_to_sparse m.dense_vector.length).isSome
      · rw [if_pos hc2] at h2
        cases h2
      rw [if_neg hc2] at h2
      injection h1 with h1
      injection h2 with h2
      subst h1
      subst h2
      injection h with h3
      injection h3 with h5 h6
      subst h6
      refine ⟨?_, ?_, rfl, h5.symm⟩
      · cases hl : alookup m.sparse_to_dense ((m.internalIdCounter + 1) % W) with
        | none => rfl
        | some q => rw [hl] at hc1; exact absurd rfl hc1
      · cases hl : alookup m.dense_to_sparse m.dense_vector.length with
        | none => rfl
        | some q => rw [hl] at hc2; exact absurd rfl hc2

/-- A successful `push_back` preserves the consistency invariant. -/
theorem push_back_inv {t : α} {id : Nat} (hInv : m.Inv)
    (h : m.push_back t = some (m', id)) : m'.Inv := by
  obtain ⟨hfresh_s, hfresh_d, hid, hm'⟩ := push_back_spec h
  subst hm'
  have hks : ∀ x q, alookup (m.sparse_to_dense ++ [(id, m.dense_vector.length)]) x = some q ↔
      (alookup m.sparse_to_dense x = some q ∨
       (x = id ∧ q = m.dense_vector.length ∧ alookup m.sparse_to_dense x = none)) := by
    intro x q
    constructor
    · intro hx
      cases hl : alookup m.sparse_to_dense x with
      | some w =>
        left
        rw [alookup_append_left hl] at hx
        exact hx
      | none =>
        right
        rw [alookup_append_right hl, alookup_cons] at hx
        by_cases hxi : x = id
        · subst hxi
          rw [if_pos rfl] at hx
          injection hx with hq
          exact ⟨rfl, hq.symm, rfl⟩
        · rw [if_neg (fun he => hxi he.symm)] at hx
          cases hx
    · rintro (hx | ⟨hxi, hq, hl⟩)
      · exact alookup_append_left hx
      · subst hxi; subst hq
        rw [alookup_append_right hl, alookup_cons, if_pos rfl]
  have hkd : ∀ x q, alookup (m.dense_to_sparse ++ [(m.dense_vector.length, id)]) x = some q ↔
      (alookup m.dense_to_sparse x = some q ∨
       (x = m.dense_vector.length ∧ q = id ∧ alookup m.dense_to_sparse x = none)) := by
    intro x q
    constructor
    · intro hx
      cases hl : alookup m.dense_to_sparse x with
      | some w =>
        left
        rw [alookup_append_left hl] at hx
        exact hx
      | none =>
        right
        rw [alookup_append_right hl, alookup_cons] at hx
        by_cases hxi : x = m.dense_vector.length
        · subst hxi
          rw [if_pos rfl] at hx
          injection hx with hq
          exact ⟨rfl, hq.symm, rfl⟩
        · rw [if_neg (fun he => hxi he.symm)] at hx
          cases hx
    · rintro (hx | ⟨hxi, hq, hl⟩)
      · exact alookup_append_left hx
      · subst hxi; subst hq
        rw [alookup_append_right hl, alookup_cons, if_pos rfl]
  refine ⟨?_, ?_, ?_, ?_, ?_, ?_, ?_⟩
  · rw [List.map_append]
    simp only [List.map_cons, List.map_nil]
    rw [List.nodup_append]
    refine ⟨hInv.std_nodup, List.nodup_singleton id, ?_⟩
    intro x hx hx1
    simp only [List.mem_singleton] at hx1
    subst hx1
    exact (alookup_eq_none_iff.1 hfresh_s) hx
  · rw [List.map_append]
    simp only [List.map_cons, List.map_nil]
    rw [List.nodup_append]
    refine ⟨hInv.dts_nodup, List.nodup_singleton _, ?_⟩
    intro x hx hx1
    simp only [List.mem_singleton] at hx1
    subst hx1
    exact (alookup_eq_none_iff.1 hfresh_d) hx
  · rintro ⟨x, q⟩ hmem
    rcases List.mem_append.1 hmem with hm1 | hm1
    · have hx := alookup_eq_some_of_mem hInv.std_nodup hm1
      have hd := hInv.fwd hx
      exact alookup_append_left hd
    · simp only [List.mem_singleton] at hm1
      injection hm1 with hx hq
      rw [hx, hq]
      rw [alookup_append_right hfresh_d, alookup_cons, if_pos rfl]
  · rintro ⟨q, x⟩ hmem
    rcases List.mem_append.1 hmem with hm1 | hm1
    · have hx := alookup_eq_some_of_mem hInv.dts_nodup hm1
      have hd := hInv.bwd hx
      exact alookup_append_left hd
    · simp only [List.mem_singleton] at hm1
      injection hm1 with hq hx
      rw [hq, hx]
      rw [alookup_append_right hfresh_s, alookup_cons, if_pos rfl]
  · rintro ⟨x, q⟩ hmem
    rcases List.mem_append.1 hmem with hm1 | hm1
    · have := hInv.2.2.2.2.1 (x, q) hm1
      simp only [List.length_append, List.length_cons, List.length_nil]
      omega
    · simp only [List.mem_singleton] at hm1
      injection hm1 with hx hq
      rw [hq]
      simp only [List.length_append, List.length_cons, List.length_nil]
      omega
  · intro q hq
    rw [List.mem_range, List.length_append, List.length_cons, List.length_nil] at hq
    by_cases hql : q < m.dense_vector.length
    · have := hInv.2.2.2.2.2.1 q (List.mem_range.2 hql)
      obtain ⟨x, hx⟩ := Option.isSome_iff_exists.1 this
      rw [alookup_append_left hx]
      rfl
    · have hqe : q = m.dense_vector.length := by omega
      subst hqe
      rw [alookup_append_right hfresh_d, alookup_cons, if_pos rfl]
      rfl
  · intro c hc
    rw [Option.mem_def] at hc
    injection hc with hc
    subst hc
    right
    refine ⟨by simp, ?_, ?_⟩
    · show alookup (m.sparse_to_dense ++ [(id, m.dense_vector.length)]) id = _
      rw [alookup_append_right hfresh_s, alookup_cons, if_pos rfl]
    · show alookup (m.dense_to_sparse ++ [(m.dense_vector.length, id)])
        m.dense_vector.length = _
      rw [alookup_append_right hfresh_d, alookup_cons, if_pos rfl]

/-- `clear` always yields a consistent container (the possibly dangling
cached iterators are harmless because the sparse map is empty). -/
theorem clear_inv (m : FlatValueMap α) : m.clear.Inv := by
  refine ⟨List.nodup_nil, List.nodup_nil, ?_, ?_, ?_, ?_, ?_⟩
  · rintro ⟨x, q⟩ hmem; cases hmem
  · rintro ⟨x, q⟩ hmem; cases hmem
  · rintro ⟨x, q⟩ hmem; cases hmem
  · intro q hq
    simp only [clear, List.length_nil] at hq
    cases hq
  · intro c hc
    left
    rfl

/-- The freshly pushed handle immediately looks up to the pushed value. -/
theorem push_back_lookup_self {t : α} {id : Nat}
    (h : m.push_back t = some (m', id)) : m'.lookup id = some t := by
  obtain ⟨hfresh_s, _, _, hm'⟩ := push_back_spec h
  subst hm'
  unfold lookup
  show (match alookup (m.sparse_to_dense ++ [(id, m.dense_vector.length)]) id with
    | none => none
    | some i => (m.dense_vector ++ [t])[i]?) = some t
  rw [alookup_append_right hfresh_s, alookup_cons, if_pos rfl]
  exact List.getElem?_concat_length m.dense_vector t

/-- `push_back` preserves every existing handle's lookup result. -/
theorem push_back_lookup_mono {t : α} {id x : Nat} {v : α}
    (h : m.push_back t = some (m', id)) (hx : m.lookup x = some v) :
    m'.lookup x = some v := by
  obtain ⟨_, _, _, hm'⟩ := push_back_spec h
  subst hm'
  unfold lookup at hx ⊢
  cases hl : alookup m.sparse_to_dense x with
  | none => rw [hl] at hx; cases hx
  | some i =>
    rw [hl] at hx
    have hx' : m.dense_vector[i]? = some v := hx
    show (match alookup (m.sparse_to_dense ++ [(id, m.dense_vector.length)]) x with
      | none => none
      | some i => (m.dense_vector ++ [t])[i]?) = some v
    rw [alookup_append_left hl]
    have hi : i < m.dense_vector.length := by
      by_contra hge
      rw [List.getElem?_eq_none (by omega)] at hx'
      cases hx'
    show (m.dense_vector ++ [t])[i]? = some v
    rw [List.getElem?_append, if_pos hi]
    exact hx'

/-- After a successful erase the erased handle is no longer contained. -/
theorem erase_contains_self (hInv : m.Inv) (hm' : m.erase h' = some m') :
    m'.contains h' = false := by
  obtain ⟨p, hp⟩ := lookup_isSome_of_erase hm'
  obtain ⟨bh, m2, hbhs, her, hlen, hnds, hndd, hsparse, hdts, hdense, hcache, hctr⟩ :=
    erase_spec hInv hp
  rw [her] at hm'
  cases hm'
  unfold contains
  rw [hsparse h', if_pos rfl]
  rfl

/-- A successful erase leaves every other handle's lookup result unchanged
(dead handles stay dead, live handles keep their values). -/
theorem erase_lookup_ne (hInv : m.Inv) (hm' : m.erase h' = some m') {x : Nat}
    (hx : x ≠ h') : m'.lookup x = m.lookup x := by
  obtain ⟨p, hp⟩ := lookup_isSome_of_erase hm'
  obtain ⟨bh, m2, hbhs, her, hlen, hnds, hndd, hsparse, hdts, hdense, hcache, hctr⟩ :=
    erase_spec hInv hp
  rw [her] at hm'
  cases hm'
  have hlt : p < m.dense_vector.length := hInv.lt hp
  unfold lookup
  rw [hsparse x, if_neg hx]
  by_cases hxl : alookup m.sparse_to_dense x = some (m.dense_vector.length - 1)
  · rw [if_pos hxl, hxl]
    show m'.dense_vector[p]? = m.dense_vector[m.dense_vector.length - 1]?
    rw [hdense p]
    have hplast : p ≠ m.dense_vector.length - 1 := by
      intro hpe
      exact hx (hInv.inj hxl (by rw [hp, hpe]))
    rw [if_pos (by omega), if_pos rfl]
  · rw [if_neg hxl]
    cases hq : alookup m.sparse_to_dense x with
    | none => rfl
    | some q =>
      show m'.dense_vector[q]? = m.dense_vector[q]?
      rw [hdense q]
      have hqlast : q ≠ m.dense_vector.length - 1 := by
        intro hqe
        exact hxl (by rw [hq, hqe])
      have hqp : q ≠ p := by
        intro hqe
        exact hx (hInv.inj (by rw [hq, hqe]) hp)
      have hqlt := hInv.lt hq
      rw [if_pos (by omega), if_neg hqp]

/-- `erase(const_iterator)` preserves the invariant. -/
theorem eraseAt_inv {pos : Nat} (hInv : m.Inv) (h : m.eraseAt pos = some m') :
    m'.Inv := by
  unfold eraseAt at h
  cases hl : alookup m.dense_to_sparse pos with
  | none =>
    rw [hl] at h
    cases h
  | some hd =>
    rw [hl] at h
    exact erase_inv hInv h

/-- The handle-by-handle erase loop preserves the invariant. -/
theorem eraseEach_inv {hs : List Nat} :
    ∀ {m m' : FlatValueMap α}, m.Inv → m.eraseEach hs = some m' → m'.Inv := by
  induction hs with
  | nil =>
    intro m m' hInv h
    cases h
    exact hInv
  | cons hd tl ih =>
    intro m m' hInv h
    unfold eraseEach at h
    cases he : m.erase hd with
    | none =>
      rw [he] at h
      cases h
    | some m₁ =>
      rw [he] at h
      exact ih (erase_inv hInv he) h

/-- `erase(first, last)` preserves the invariant. -/
theorem eraseRange_inv {a b : Nat} (hInv : m.Inv) (h : m.eraseRange a b = some m') :
    m'.Inv := by
  unfold eraseRange at h
  cases hl : (List.range b).mapM (fun i => alookup m.dense_to_sparse (a + i)) with
  | none =>
    rw [hl] at h
    cases h
  | some handles =>
    rw [hl] at h
    exact eraseEach_inv hInv h

/-- One operation preserves the invariant and the lookup result of a handle
it does not erase (with `clear` excluded). -/
theorem runOp_step {op : Op α} {h : Nat} {v : α} (hInv : m.Inv)
    (hl : m.lookup h = some v) (hne : op ≠ Op.eraseOp h) (hnc : op ≠ Op.clearOp)
    (hrun : m.runOp op = some m') : m'.Inv ∧ m'.lookup h = some v := by
  cases op with
  | pushOp v' =>
    simp only [runOp] at hrun
    cases hp : m.push_back v' with
    | none =>
      rw [hp] at hrun
      cases hrun
    | some r =>
      rw [hp] at hrun
      injection hrun with hr
      have hp' : m.push_back v' = some (r.1, r.2) := hp
      rw [← hr]
      exact ⟨push_back_inv hInv hp', push_back_lookup_mono hp' hl⟩
  | eraseOp h₂ =>
    simp only [runOp] at hrun
    have hne' : h ≠ h₂ := by
      intro he
      exact hne (by rw [he])
    refine ⟨erase_inv hInv hrun, ?_⟩
    rw [erase_lookup_ne hInv hrun hne']
    exact hl
  | clearOp => exact absurd rfl hnc

/-- A whole operation sequence that never erases `h` and never clears keeps
`h` resolving to its original value. -/
theorem run_keeps_lookup {ops : List (Op α)} :
    ∀ {m m' : FlatValueMap α} {h : Nat} {v : α}, m.Inv → m.lookup h = some v →
      Op.eraseOp h ∉ ops → Op.clearOp ∉ ops → m.run ops = some m' →
      m'.lookup h = some v := by
  induction ops with
  | nil =>
    intro m m' h v _ hl _ _ hrun
    cases hrun
    exact hl
  | cons op rest ih =>
    intro m m' h v hInv hl hne hnc hrun
    unfold run at hrun
    cases hop : m.runOp op with
    | none =>
      rw [hop] at hrun
      cases hrun
    | some m₁ =>
      rw [hop] at hrun
      have hne1 : op ≠ Op.eraseOp h := by
        intro he
        exact hne (he ▸ List.mem_cons_self op rest)
      have hnc1 : op ≠ Op.clearOp := by
        intro he
        exact hnc (he ▸ List.mem_cons_self op rest)
      obtain ⟨hInv₁, hl₁⟩ := runOp_step hInv hl hne1 hnc1 hop
      exact ih hInv₁ hl₁ (fun hm => hne (List.mem_cons_of_mem op hm))
        (fun hm => hnc (List.mem_cons_of_mem op hm)) hrun

end FlatValueMap

/-- A key-distinct association list whose lookup function is injective has
pairwise-distinct values. -/
theorem vals_nodup_of_inj {l : List (Nat × Nat)}
    (hk : (l.map Prod.fst).Nodup)
    (hinj : ∀ x y q, alookup l x = some q → alookup l y = some q → x = y) :
    (l.map Prod.snd).Nodup := by
  induction l with
  | nil => simp
  | cons e rest ih =>
    rw [List.map_cons, List.nodup_cons] at hk
    rw [List.map_cons, List.nodup_cons]
    constructor
    · intro hmem
      obtain ⟨⟨k, w⟩, hkm, hw⟩ := List.mem_map.1 hmem
      have hk_ne : e.1 ≠ k := by
        intro hek
        exact hk.1 (hek ▸ List.mem_map.2 ⟨(k, w), hkm, rfl⟩)
      have h1 : alookup (e :: rest) e.1 = some e.2 := by
        rw [alookup_cons, if_pos rfl]
      have h2 : alookup (e :: rest) k = some w := by
        rw [alookup_cons, if_neg hk_ne]
        exact alookup_eq_some_of_mem hk.2 hkm
      have hw' : w = e.2 := hw
      rw [hw'] at h2
      exact hk_ne (hinj e.1 k e.2 h1 h2)
    · apply ih hk.2
      intro x y q hx hy
      have hxk : e.1 ≠ x := by
        intro he
        exact hk.1 (he ▸ alookup_isSome_iff_mem_keys.1 (by rw [hx]; rfl))
      have hyk : e.1 ≠ y := by
        intro he
        exact hk.1 (he ▸ alookup_isSome_iff_mem_keys.1 (by rw [hy]; rfl))
      refine hinj x y q ?_ ?_
      · rw [alookup_cons, if_neg hxk]
        exact hx
      · rw [alookup_cons, if_neg hyk]
        exact hy

/-! ## Lemmas about `LightFlatValueMap` -/

namespace LightFlatValueMap

variable {α : Type} {m m' : LightFlatValueMap α}

theorem WeakInv.keys_nodup (h : m.WeakInv) :
    (m.sparse_to_dense.map Prod.fst).Nodup := h.1

theorem WeakInv.vals_nodup (h : m.WeakInv) :
    (m.sparse_to_dense.map Prod.snd).Nodup := h.2.1

theorem WeakInv.lt_light (h : m.WeakInv) {x q : Nat}
    (hx : alookup m.sparse_to_dense x = some q) : q < m.dense_vector.length :=
  h.2.2 (x, q) (mem_of_alookup_eq_some hx)

theorem WeakInv.inj_light (h : m.WeakInv) {x y q : Nat}
    (hx : alookup m.sparse_to_dense x = some q)
    (hy : alookup m.sparse_to_dense y = some q) : x = y :=
  snd_inj_of_nodup h.vals_nodup (mem_of_alookup_eq_some hx)
    (mem_of_alookup_eq_some hy)

theorem Inv.weak (h : m.Inv) : m.WeakInv := h.1

/-- A successful light erase presupposes the handle was found. -/
theorem lookup_isSome_of_erase_light {h' : Nat} (hm' : m.erase h' = some m') :
    ∃ p, alookup m.sparse_to_dense h' = some p := by
  unfold erase at hm'
  cases hx : alookup m.sparse_to_dense h' with
  | none => rw [hx] at hm'; cases hm'
  | some p => exact ⟨p, rfl⟩

/-- On a fully consistent light container, erasing a live handle always
succeeds (the `dense_to_sparse` scan finds the owner of the last slot). -/
theorem erase_isSome (hI : m.Inv) {h p : Nat}
    (hh : alookup m.sparse_to_dense h = some p) :
    ∃ m', m.erase h = some m' := by
  have hlt : p < m.dense_vector.length := hI.weak.lt_light hh
  unfold erase
  simp only [hh]
  by_cases hp : p = m.dense_vector.length - 1
  · rw [if_pos hp]
    exact ⟨_, rfl⟩
  · rw [if_neg hp]
    cases hscan : m.dense_to_sparse (m.dense_vector.length - 1) with
    | none =>
      exfalso
      have := hI.2 (m.dense_vector.length - 1)
        (List.mem_range.2 (by omega))
      unfold dense_to_sparse at hscan
      rw [hscan] at this
      cases this
    | some bh =>
      exact ⟨_, rfl⟩

/-- Master characterization of a successful `LightFlatValueMap::erase`:
identical observable effect to the fast-erase variant's `erase` on the
shared components (sparse map and dense vector). -/
theorem erase_spec_light (hW : m.WeakInv) {h p : Nat}
    (hh : alookup m.sparse_to_dense h = some p) (hm' : m.erase h = some m') :
    m'.dense_vector.length + 1 = m.dense_vector.length ∧
    m'.WeakInv ∧
    (∀ x, alookup m'.sparse_to_dense x =
      if x = h then none
      else if alookup m.sparse_to_dense x = some (m.dense_vector.length - 1)
        then some p
        else alookup m.sparse_to_dense x) ∧
    (∀ q, m'.dense_vector[q]? =
      if q < m.dense_vector.length - 1 then
        (if q = p then m.dense_vector[m.dense_vector.length - 1]?
         else m.dense_vector[q]?)
      else none) ∧
    m'.internalIdCounter = m.internalIdCounter := by
  have hlt : p < m.dense_vector.length := hW.lt_light hh
  have hlen0 : 0 < m.dense_vector.length := by omega
  unfold erase at hm'
  simp only [hh] at hm'
  by_cases hp : p = m.dense_vector.length - 1
  · -- erasing the back element: no swap, no scan
    rw [if_pos hp] at hm'
    injection hm' with hm'
    subst hm'
    have hchar : ∀ x, alookup (aerase m.sparse_to_dense h) x =
        if x = h then none
        else if alookup m.sparse_to_dense x = some (m.dense_vector.length - 1)
          then some p
          else alookup m.sparse_to_dense x := by
      intro x
      by_cases hx : x = h
      · rw [if_pos hx, hx]
        exact alookup_aerase_self hW.keys_nodup
      · rw [if_neg hx, alookup_aerase_ne hx]
        by_cases hxl : alookup m.sparse_to_dense x =
            some (m.dense_vector.length - 1)
        · rw [if_pos hxl, hxl, hp]
        · rw [if_neg hxl]
    refine ⟨?_, ⟨?_, ?_, ?_⟩, hchar, ?_, rfl⟩
    · simp only [List.length_dropLast]
      omega
    · exact keys_nodup_aerase hW.keys_nodup
    · apply vals_nodup_of_inj (keys_nodup_aerase hW.keys_nodup)
      intro x y q hx hy
      rw [hchar x] at hx
      rw [hchar y] at hy
      by_cases hxh : x = h
      · rw [if_pos hxh] at hx; cases hx
      rw [if_neg hxh] at hx
      by_cases hyh : y = h
      · rw [if_pos hyh] at hy; cases hy
      rw [if_neg hyh] at hy
      by_cases hxl : alookup m.sparse_to_dense x = some (m.dense_vector.length - 1)
      · rw [if_pos hxl] at hx
        injection hx with hx
        by_cases hyl : alookup m.sparse_to_dense y = some (m.dense_vector.length - 1)
        · rw [if_pos hyl] at hy
          injection hy with hy
          exact hW.inj_light hxl hyl
        · rw [if_neg hyl] at hy
          rw [← hx] at hy
          exact absurd (hW.inj_light hy hh) hyh
      · rw [if_neg hxl] at hx
        by_cases hyl : alookup m.sparse_to_dense y = some (m.dense_vector.length - 1)
        · rw [if_pos hyl] at hy
          injection hy with hy
          rw [← hy] at hx
          exact absurd (hW.inj_light hx hh) hxh
        · rw [if_neg hyl] at hy
          exact hW.inj_light hx hy
    · rintro ⟨x, q⟩ hmem
      have hxs : alookup (aerase m.sparse_to_dense h) x = some q :=
        alookup_eq_some_of_mem (keys_nodup_aerase hW.keys_nodup) hmem
      rw [hchar x] at hxs
      by_cases hxh : x = h
      · rw [if_pos hxh] at hxs; cases hxs
      rw [if_neg hxh] at hxs
      by_cases hxl : alookup m.sparse_to_dense x = some (m.dense_vector.length - 1)
      · rw [if_pos hxl] at hxs
        exfalso
        apply hxh
        apply hW.inj_light hxl
        rw [hh, hp]
      · rw [if_neg hxl] at hxs
        have hq_lt := hW.lt_light hxs
        have hq_ne : q ≠ m.dense_vector.length - 1 := by
          intro hqe
          exact hxl (by rw [hxs, hqe])
        show q < (m.dense_vector.dropLast).length
        simp only [List.length_dropLast]
        omega
    · intro q
      rw [getElem?_dropLast]
      by_cases hq : q < m.dense_vector.length - 1
      · rw [if_pos hq, if_pos hq, if_neg (by omega)]
      · rw [if_neg hq, if_neg hq]
  · -- erasing a non-back element: swap, then linear scan fix-up
    rw [if_neg hp] at hm'
    cases hscan : m.dense_to_sparse (m.dense_vector.length - 1) with
    | none =>
      rw [hscan] at hm'
      cases hm'
    | some bh =>
      rw [hscan] at hm'
      injection hm' with hm'
      subst hm'
      have hbmem : (bh, m.dense_vector.length - 1) ∈ m.sparse_to_dense :=
        mem_of_afindByValue_eq_some hscan
      have hbhs : alookup m.sparse_to_dense bh =
          some (m.dense_vector.length - 1) :=
        alookup_eq_some_of_mem hW.keys_nodup hbmem
      have hset : asetFirstByValue m.sparse_to_dense
          (m.dense_vector.length - 1) p = aset m.sparse_to_dense bh p :=
        asetFirstByValue_eq_aset hW.keys_nodup hW.vals_nodup hbmem
      rw [hset]
      have hmem_bh : bh ∈ m.sparse_to_dense.map Prod.fst :=
        alookup_isSome_iff_mem_keys.1 (by rw [hbhs]; rfl)
      have hchar : ∀ x, alookup (aerase (aset m.sparse_to_dense bh p) h) x =
          if x = h then none
          else if alookup m.sparse_to_dense x = some (m.dense_vector.length - 1)
            then some p
            else alookup m.sparse_to_dense x := by
        intro x
        by_cases hx : x = h
        · rw [if_pos hx, hx]
          exact alookup_aerase_self (by rw [keys_aset]; exact hW.keys_nodup)
        · rw [if_neg hx, alookup_aerase_ne hx]
          by_cases hxb : x = bh
          · rw [hxb, alookup_aset_self hmem_bh, hbhs, if_pos rfl]
          · rw [alookup_aset_ne hxb]
            have hnl : ¬(alookup m.sparse_to_dense x =
                some (m.dense_vector.length - 1)) := by
              intro hl
              exact hxb (snd_inj_of_nodup hW.vals_nodup
                (mem_of_alookup_eq_some hl) hbmem)
            rw [if_neg hnl]
      refine ⟨?_, ⟨?_, ?_, ?_⟩, hchar, ?_, rfl⟩
      · simp only [List.length_dropLast, length_lswap]
        omega
      · exact keys_nodup_aerase (by rw [keys_aset]; exact hW.keys_nodup)
      · apply vals_nodup_of_inj
          (keys_nodup_aerase (by rw [keys_aset]; exact hW.keys_nodup))
        intro x y q hx hy
        rw [hchar x] at hx
        rw [hchar y] at hy
        by_cases hxh : x = h
        · rw [if_pos hxh] at hx; cases hx
        rw [if_neg hxh] at hx
        by_cases hyh : y = h
        · rw [if_pos hyh] at hy; cases hy
        rw [if_neg hyh] at hy
        by_cases hxl : alookup m.sparse_to_dense x = some (m.dense_vector.length - 1)
        · rw [if_pos hxl] at hx
          injection hx with hx
          by_cases hyl : alookup m.sparse_to_dense y = some (m.dense_vector.length - 1)
          · rw [if_pos hyl] at hy
            injection hy with hy
            exact hW.inj_light hxl hyl
          · rw [if_neg hyl] at hy
            rw [← hx] at hy
            exact absurd (hW.inj_light hy hh) hyh
        · rw [if_neg hxl] at hx
          by_cases hyl : alookup m.sparse_to_dense y = some (m.dense_vector.length - 1)
          · rw [if_pos hyl] at hy
            injection hy with hy
            rw [← hy] at hx
            exact absurd (hW.inj_light hx hh) hxh
          · rw [if_neg hyl] at hy
            exact hW.inj_light hx hy
      · rintro ⟨x, q⟩ hmem
        have hxs : alookup (aerase (aset m.sparse_to_dense bh p) h) x = some q :=
          alookup_eq_some_of_mem
            (keys_nodup_aerase (by rw [keys_aset]; exact hW.keys_nodup)) hmem
        rw [hchar x] at hxs
        by_cases hxh : x = h
        · rw [if_pos hxh] at hxs; cases hxs
        rw [if_neg hxh] at hxs
        show q < ((lswap m.dense_vector p (m.dense_vector.length - 1)).dropLast).length
        simp only [List.length_dropLast, length_lswap]
        by_cases hxl : alookup m.sparse_to_dense x = some (m.dense_vector.length - 1)
        · rw [if_pos hxl] at hxs
          injection hxs with hxs
          omega
        · rw [if_neg hxl] at hxs
          have hq_lt := hW.lt_light hxs
          have hq_ne : q ≠ m.dense_vector.length - 1 := by
            intro hqe
            exact hxl (by rw [hxs, hqe])
          omega
      · intro q
        rw [getElem?_dropLast]
        simp only [length_lswap]
        by_cases hq : q < m.dense_vector.length - 1
        · rw [if_pos hq, if_pos hq,
            getElem?_lswap m.dense_vector q hlt (by omega), if_neg (by omega)]
        · rw [if_neg hq, if_neg hq]

/-- After a successful light erase the handle is no longer contained. -/
theorem erase_contains_self_light {h' : Nat} (hW : m.WeakInv)
    (hm' : m.erase h' = some m') : m'.contains h' = false := by
  obtain ⟨p, hp⟩ := lookup_isSome_of_erase_light hm'
  obtain ⟨hlen, hW', hchar, hdense, hctr⟩ := erase_spec_light hW hp hm'
  unfold contains
  rw [hchar h', if_pos rfl]
  rfl

/-- A successful light erase leaves every other handle's lookup unchanged. -/
theorem erase_lookup_ne_light {h' x : Nat} (hW : m.WeakInv)
    (hm' : m.erase h' = some m') (hx : x ≠ h') : m'.lookup x = m.lookup x := by
  obtain ⟨p, hp⟩ := lookup_isSome_of_erase_light hm'
  obtain ⟨hlen, hW', hchar, hdense, hctr⟩ := erase_spec_light hW hp hm'
  have hlt : p < m.dense_vector.length := hW.lt_light hp
  unfold lookup
  rw [hchar x, if_neg hx]
  by_cases hxl : alookup m.sparse_to_dense x = some (m.dense_vector.length - 1)
  · rw [if_pos hxl, hxl]
    show m'.dense_vector[p]? = m.dense_vector[m.dense_vector.length - 1]?
    rw [hdense p]
    have hplast : p ≠ m.dense_vector.length - 1 := by
      intro hpe
      exact hx (hW.inj_light hxl (by rw [hp, hpe]))
    rw [if_pos (by omega), if_pos rfl]
  · rw [if_neg hxl]
    cases hq : alookup m.sparse_to_dense x with
    | none => rfl
    | some q =>
      show m'.dense_vector[q]? = m.dense_vector[q]?
      rw [hdense q]
      have hqlast : q ≠ m.dense_vector.length - 1 := by
        intro hqe
        exact hxl (by rw [hq, hqe])
      have hqp : q ≠ p := by
        intro hqe
        exact hx (hW.inj_light (by rw [hq, hqe]) hp)
      have hqlt := hW.lt_light hq
      rw [if_pos (by omega), if_neg hqp]

/-- The light `push_back` preserves structural consistency whether or not
the allocated id collides with a live handle (the colliding `emplace` leaves
the sparse map untouched). -/
theorem push_back_weakInv {t : α} (hW : m.WeakInv) :
    (m.push_back t).1.WeakInv := by
  simp only [push_back, aemplaceSilent]
  by_cases hc : (alookup m.sparse_to_dense ((m.internalIdCounter + 1) % W)).isSome
  · rw [if_pos hc]
    refine ⟨hW.keys_nodup, hW.vals_nodup, ?_⟩
    rintro ⟨x, q⟩ hmem
    have := hW.2.2 (x, q) hmem
    simp only [List.length_append, List.length_cons, List.length_nil]
    omega
  · rw [if_neg hc]
    have hfresh : alookup m.sparse_to_dense ((m.internalIdCounter + 1) % W) = none := by
      cases hl : alookup m.sparse_to_dense ((m.internalIdCounter + 1) % W) with
      | none => rfl
      | some q => rw [hl] at hc; exact absurd rfl hc
    refine ⟨?_, ?_, ?_⟩
    · rw [List.map_append]
      simp only [List.map_cons, List.map_nil]
      rw [List.nodup_append]
      refine ⟨hW.keys_nodup, List.nodup_singleton _, ?_⟩
      intro x hx hx1
      simp only [List.mem_singleton] at hx1
      subst hx1
      exact (alookup_eq_none_iff.1 hfresh) hx
    · rw [List.map_append]
      simp only [List.map_cons, List.map_nil]
      rw [List.nodup_append]
      refine ⟨hW.vals_nodup, List.nodup_singleton _, ?_⟩
      intro q hq hq1
      simp only [List.mem_singleton] at hq1
      subst hq1
      obtain ⟨⟨k, w⟩, hkm, hw⟩ := List.mem_map.1 hq
      have hw' : w = m.dense_vector.length := hw
      rw [hw'] at hkm
      have := hW.2.2 (k, m.dense_vector.length) hkm
      omega
    · rintro ⟨x, q⟩ hmem
      simp only [List.length_append, List.length_cons, List.length_nil]
      rcases List.mem_append.1 hmem with hm1 | hm1
      · have := hW.2.2 (x, q) hm1
        omega
      · simp only [List.mem_singleton] at hm1
        injection hm1 with hx hq
        omega

/-- The light `push_back` preserves every existing handle's lookup result. -/
theorem push_back_lookup_mono_light {t : α} {x : Nat} {v : α}
    (hx : m.lookup x = some v) : (m.push_back t).1.lookup x = some v := by
  unfold lookup at hx ⊢
  cases hl : alookup m.sparse_to_dense x with
  | none => rw [hl] at hx; cases hx
  | some i =>
    rw [hl] at hx
    have hx' : m.dense_vector[i]? = some v := hx
    have hi : i < m.dense_vector.length := by
      by_contra hge
      rw [List.getElem?_eq_none (by omega)] at hx'
      cases hx'
    simp only [push_back, aemplaceSilent]
    by_cases hc : (alookup m.sparse_to_dense ((m.internalIdCounter + 1) % W)).isSome
    · rw [if_pos hc]
      show (match alookup m.sparse_to_dense x with
        | none => none
        | some element_index => (m.dense_vector ++ [t])[element_index]?) = some v
      rw [hl]
      show (m.dense_vector ++ [t])[i]? = some v
      rw [List.getElem?_append, if_pos hi]
      exact hx'
    · rw [if_neg hc]
      show (match alookup (m.sparse_to_dense ++
          [((m.internalIdCounter + 1) % W, m.dense_vector.length)]) x with
        | none => none
        | some element_index => (m.dense_vector ++ [t])[element_index]?) = some v
      rw [alookup_append_left hl]
      show (m.dense_vector ++ [t])[i]? = some v
      rw [List.getElem?_append, if_pos hi]
      exact hx'

/-- Characterization of a successful fresh push: the id was not live, so the
`emplace` really inserted, and the returned handle resolves to the pushed
value. -/
theorem push_back_fresh_spec {t : α} {r : LightFlatValueMap α × Nat}
    (h : m.push_back_fresh t = some r) :
    r = m.push_back t ∧ r.1.lookup r.2 = some t := by
  unfold push_back_fresh at h
  by_cases hc : (alookup m.sparse_to_dense ((m.internalIdCounter + 1) % W)).isSome
  · rw [if_pos hc] at h
    cases h
  rw [if_neg hc] at h
  injection h with h
  have hfresh : alookup m.sparse_to_dense ((m.internalIdCounter + 1) % W) = none := by
    cases hl : alookup m.sparse_to_dense ((m.internalIdCounter + 1) % W) with
    | none => rfl
    | some q => rw [hl] at hc; exact absurd rfl hc
  refine ⟨h.symm, ?_⟩
  rw [← h]
  unfold lookup
  simp only [push_back, aemplaceSilent]
  rw [if_neg hc]
  show (match alookup (m.sparse_to_dense ++
      [((m.internalIdCounter + 1) % W, m.dense_vector.length)])
      ((m.internalIdCounter + 1) % W) with
    | none => none
    | some element_index => (m.dense_vector ++ [t])[element_index]?) = some t
  rw [alookup_append_right hfresh, alookup_cons, if_pos rfl]
  exact List.getElem?_concat_length m.dense_vector t

/-- A fresh-insertion operation sequence that never erases `h` and never
clears keeps `h` resolving to its original value, on the light container. -/
theorem runFresh_keeps_lookup {ops : List (Op α)} :
    ∀ {m m' : LightFlatValueMap α} {h : Nat} {v : α}, m.WeakInv →
      m.lookup h = some v → Op.eraseOp h ∉ ops → Op.clearOp ∉ ops →
      m.runFresh ops = some m' → m'.lookup h = some v := by
  induction ops with
  | nil =>
    intro m m' h v _ hl _ _ hrun
    cases hrun
    exact hl
  | cons op rest ih =>
    intro m m' h v hW hl hne hnc hrun
    have hne1 : op ≠ Op.eraseOp h := by
      intro he
      exact hne (he ▸ List.mem_cons_self op rest)
    have hnc1 : op ≠ Op.clearOp := by
      intro he
      exact hnc (he ▸ List.mem_cons_self op rest)
    have hne2 : Op.eraseOp h ∉ rest := fun hm => hne (List.mem_cons_of_mem op hm)
    have hnc2 : Op.clearOp ∉ rest := fun hm => hnc (List.mem_cons_of_mem op hm)
    cases op with
    | pushOp v' =>
      unfold runFresh at hrun
      cases hp : m.push_back_fresh v' with
      | none =>
        rw [hp] at hrun
        cases hrun
      | some r =>
        rw [hp] at hrun
        obtain ⟨hr, _⟩ := push_back_fresh_spec hp
        have hW1 : r.1.WeakInv := by
          rw [hr]
          exact push_back_weakInv hW
        have hl1 : r.1.lookup h = some v := by
          rw [hr]
          exact push_back_lookup_mono_light hl
        exact ih hW1 hl1 hne2 hnc2 hrun
    | eraseOp h₂ =>
      unfold runFresh at hrun
      cases he : m.erase h₂ with
      | none =>
        rw [he] at hrun
        cases hrun
      | some m₁ =>
        rw [he] at hrun
        obtain ⟨p₂, hp₂⟩ := lookup_isSome_of_erase_light he
        obtain ⟨_, hW1, _, _, _⟩ := erase_spec_light hW hp₂ he
        have hhne : h ≠ h₂ := by
          intro heq
          exact hne1 (by rw [heq])
        have hl1 : m₁.lookup h = some v := by
          rw [erase_lookup_ne_light hW he hhne]
          exact hl
        exact ih hW1 hl1 hne2 hnc2 hrun
    | clearOp => exact absurd rfl hnc1

end LightFlatValueMap

/-! ## The identifier counter across operation sequences -/

theorem W_pos : 0 < W := by norm_num [W]

/-- Counter evolution and the ids issued along a logged run: starting from a
counter below `2 ^ 32`, a successful run issues exactly the consecutive
counter values reduced mod `2 ^ 32`, and erases and clears never change the
counter. -/
theorem FlatValueMap.runLog_spec {α : Type} {ops : List (Op α)} :
    ∀ {m m' : FlatValueMap α} {hs : List Nat}, m.internalIdCounter < W →
      m.runLog ops = some (m', hs) →
      m'.internalIdCounter = (m.internalIdCounter + hs.length) % W ∧
      hs = (List.range hs.length).map
        (fun i => (m.internalIdCounter + i + 1) % W) := by
  induction ops with
  | nil =>
    intro m m' hs hc h
    cases h
    refine ⟨?_, rfl⟩
    simp [Nat.mod_eq_of_lt hc]
  | cons op rest ih =>
    intro m m' hs hc h
    cases op with
    | pushOp v =>
      simp only [runLog] at h
      cases hp : m.push_back v with
      | none =>
        rw [hp] at h
        cases h
      | some r =>
        simp only [hp] at h
        cases hrest : runLog r.1 rest with
        | none =>
          simp only [hrest] at h
          cases h
        | some s =>
          simp only [hrest] at h
          injection h with h
          injection h with h1 h2
          subst h1
          subst h2
          have hp' : m.push_back v = some (r.1, r.2) := hp
          obtain ⟨_, _, hid, hr1⟩ := push_back_spec hp'
          have hctr1 : r.1.internalIdCounter = (m.internalIdCounter + 1) % W := by
            rw [hr1, ← hid]
          have hlt1 : r.1.internalIdCounter < W := by
            rw [hctr1]
            exact Nat.mod_lt _ W_pos
          obtain ⟨ih1, ih2⟩ := ih hlt1 hrest
          constructor
          · rw [ih1, hctr1, Nat.mod_add_mod, List.length_cons]
            congr 1
            omega
          · rw [List.length_cons, List.range_succ_eq_map, List.map_cons,
              List.map_map, List.cons.injEq]
            constructor
            · show r.2 = (m.internalIdCounter + 0 + 1) % W
              rw [hid]
            · conv_lhs => rw [ih2, hctr1]
              apply List.map_congr_left
              intro i hi
              show ((m.internalIdCounter + 1) % W + i + 1) % W =
                (m.internalIdCounter + (i + 1) + 1) % W
              rw [Nat.add_assoc, Nat.mod_add_mod]
              congr 1
              omega
    | eraseOp h₂ =>
      simp only [runLog] at h
      cases he : m.erase h₂ with
      | none =>
        rw [he] at h
        cases h
      | some m₁ =>
        simp only [he] at h
        have hctr := erase_counter he
        obtain ⟨ih1, ih2⟩ := ih (by rw [hctr]; exact hc) h
        rw [hctr] at ih1 ih2
        exact ⟨ih1, ih2⟩
    | clearOp =>
      simp only [runLog] at h
      have hcc : m.clear.internalIdCounter = m.internalIdCounter := rfl
      obtain ⟨ih1, ih2⟩ := ih (by rw [hcc]; exact hc) h
      rw [hcc] at ih1 ih2
      exact ⟨ih1, ih2⟩

/-- Consecutive counter values reduced mod `2 ^ 32` are pairwise distinct on
any window of at most `2 ^ 32` insertions. -/
theorem mod_window_inj {c n : Nat} (hn : n ≤ W) {i j : Nat} (hi : i < n)
    (hj : j < n) (heq : (c + i + 1) % W = (c + j + 1) % W) : i = j := by
  rcases Nat.le_total i j with hle | hle
  · have hmod : Nat.ModEq W (c + i + 1) (c + j + 1) := heq
    have hdvd := (Nat.modEq_iff_dvd' (by omega)).mp hmod
    have heq2 : (c + j + 1) - (c + i + 1) = j - i := by omega
    rw [heq2] at hdvd
    rcases Nat.eq_zero_or_pos (j - i) with h0 | h0
    · omega
    · have := Nat.le_of_dvd h0 hdvd
      omega
  · have hmod : Nat.ModEq W (c + j + 1) (c + i + 1) := heq.symm
    have hdvd := (Nat.modEq_iff_dvd' (by omega)).mp hmod
    have heq2 : (c + i + 1) - (c + j + 1) = i - j := by omega
    rw [heq2] at hdvd
    rcases Nat.eq_zero_or_pos (i - j) with h0 | h0
    · omega
    · have := Nat.le_of_dvd h0 hdvd
      omega

/-- The handles issued by any successful run of at most `2 ^ 32` insertions
from a fresh container are pairwise distinct. -/
theorem FlatValueMap.runLog_issued_nodup {α : Type} {ops : List (Op α)}
    {m' : FlatValueMap α} {hs : List Nat}
    (h : (FlatValueMap.empty (α := α)).runLog ops = some (m', hs))
    (hlen : hs.length ≤ W) : hs.Nodup := by
  obtain ⟨_, hhs⟩ := runLog_spec (by norm_num [W, empty]) h
  rw [hhs]
  apply (List.nodup_range hs.length).map_on
  intro i hi j hj heq
  rw [List.mem_range] at hi hj
  exact mod_window_inj hlen hi hj heq

/-! ## The wraparound run: push/erase pairs -/

/-- One push/erase pair on a structurally empty container succeeds and
returns an empty container with the counter advanced by one (mod `2 ^ 32`). -/
theorem pushEraseStep_clean (c : Nat) :
    pushEraseStep ⟨[], [], [], none, c⟩ =
      some ⟨[], [], [], none, (c + 1) % W⟩ := by
  simp [pushEraseStep, FlatValueMap.push_back, aemplace, alookup,
    FlatValueMap.erase, FlatValueMap.backResolve, aerase]

/-- The push/erase pair run always succeeds and its state after `n` pairs is
the empty container with counter `n % 2 ^ 32`. -/
theorem runPairs_eq (n : Nat) : runPairs n = some ⟨[], [], [], none, n % W⟩ := by
  induction n with
  | zero =>
    simp [runPairs, FlatValueMap.empty]
  | succ n ih =>
    unfold runPairs
    rw [ih]
    show pushEraseStep ⟨[], [], [], none, n % W⟩ = _
    rw [pushEraseStep_clean, Nat.mod_add_mod]

/-- The id issued by the `n`-th push of the pair run. -/
theorem issuedAt_eq (n : Nat) : issuedAt n = some (n % W) := by
  unfold issuedAt
  rw [runPairs_eq n]
  rfl

/-! ## The wraparound run: `2 ^ 32` live insertions into the light variant -/

/-- Closed form of `lightPushN` while the counter has not wrapped: the `k`-th
push allocates id `k % 2 ^ 32` for dense position `k - 1`, and every id is
fresh. -/
theorem lightPushN_eq : ∀ n, n ≤ W → lightPushN n =
    ⟨(List.range n).map (fun i => ((i + 1) % W, i)), List.range n, n % W⟩ := by
  intro n
  induction n with
  | zero =>
    intro _
    simp [lightPushN, LightFlatValueMap.empty]
  | succ n ih =>
    intro hle
    have hn : n ≤ W := by omega
    show ((lightPushN n).push_back n).1 = _
    rw [ih hn]
    simp only [LightFlatValueMap.push_back, aemplaceSilent, List.length_range]
    have hfresh : alookup ((List.range n).map (fun i => ((i + 1) % W, i)))
        ((n % W + 1) % W) = none := by
      rw [alookup_eq_none_iff]
      intro hmem
      rw [List.map_map] at hmem
      obtain ⟨i, hi, hv⟩ := List.mem_map.1 hmem
      rw [List.mem_range] at hi
      have hv0 : (i + 1) % W = (n % W + 1) % W := hv
      have hv' : (i + 1) % W = (n + 1) % W := by
        rw [hv0, Nat.mod_add_mod]
      have : i = n := by
        by_cases hnW : n + 1 < W
        · rw [Nat.mod_eq_of_lt (by omega), Nat.mod_eq_of_lt hnW] at hv'
          omega
        · have hnw : n + 1 = W := by omega
          rw [Nat.mod_eq_of_lt (by omega), hnw, Nat.mod_self] at hv'
          omega
      omega
    rw [if_neg (by rw [hfresh]; exact Bool.false_ne_true)]
    have hside : (List.range n).map (fun i => ((i + 1) % W, i)) ++
        [((n % W + 1) % W, n)] =
        (List.range (n + 1)).map (fun i => ((i + 1) % W, i)) := by
      rw [List.range_succ, List.map_append, List.map_cons, List.map_nil,
        Nat.mod_add_mod]
    rw [hside, ← List.range_succ, Nat.mod_add_mod]

/-- Lookup only depends on the sparse map and the dense vector, which the
two variants share. -/
theorem light_lookup_congr {α : Type} {lm : LightFlatValueMap α}
    {m : FlatValueMap α} (hs : lm.sparse_to_dense = m.sparse_to_dense)
    (hd : lm.dense_vector = m.dense_vector) (x : Nat) :
    lm.lookup x = m.lookup x := by
  unfold LightFlatValueMap.lookup FlatValueMap.lookup
  rw [hs, hd]

theorem light_contains_congr {α : Type} {lm : LightFlatValueMap α}
    {m : FlatValueMap α} (hs : lm.sparse_to_dense = m.sparse_to_dense)
    (x : Nat) : lm.contains x = m.contains x := by
  unfold LightFlatValueMap.contains FlatValueMap.contains
  rw [hs]

/-- Looking up the handle returned by a light `push_back` whose allocated id
collides with a live handle: the failed `emplace` leaves the old mapping in
place, so the returned handle resolves to the old element. -/
theorem LightFlatValueMap.push_back_collision_lookup {α : Type}
    {m : LightFlatValueMap α} {t : α} {q : Nat}
    (hc : alookup m.sparse_to_dense ((m.internalIdCounter + 1) % W) = some q)
    (hq : q < m.dense_vector.length) :
    (m.push_back t).1.lookup ((m.push_back t).2) = m.dense_vector[q]? := by
  simp only [push_back, aemplaceSilent, lookup]
  rw [if_pos (by rw [hc]; rfl)]
  show (match alookup m.sparse_to_dense ((m.internalIdCounter + 1) % W) with
    | none => none
    | some element_index => (m.dense_vector ++ [t])[element_index]?) =
    m.dense_vector[q]?
  rw [hc]
  show (m.dense_vector ++ [t])[q]? = m.dense_vector[q]?
  rw [List.getElem?_append, if_pos hq]

/-- Head lookup in a map over a nonempty range. -/
theorem alookup_map_range_head {f : Nat → Nat × Nat} {n k : Nat} (hn : 0 < n)
    (hk : (f 0).1 = k) : alookup ((List.range n).map f) k = some (f 0).2 := by
  obtain ⟨m, rfl⟩ : ∃ m, n = m + 1 := ⟨n - 1, by omega⟩
  rw [List.range_succ_eq_map, List.map_cons, alookup_cons, if_pos hk]

theorem LightFlatValueMap.mk_sparse {α : Type} (A : List (Nat × Nat))
    (B : List α) (c : Nat) :
    (⟨A, B, c⟩ : LightFlatValueMap α).sparse_to_dense = A := rfl

theorem LightFlatValueMap.mk_dense {α : Type} (A : List (Nat × Nat))
    (B : List α) (c : Nat) :
    (⟨A, B, c⟩ : LightFlatValueMap α).dense_vector = B := rfl

theorem LightFlatValueMap.mk_counter {α : Type} (A : List (Nat × Nat))
    (B : List α) (c : Nat) :
    (⟨A, B, c⟩ : LightFlatValueMap α).internalIdCounter = c := rfl

/-- After `2 ^ 32` live insertions the light container's counter has wrapped
to `0`, and the next `push_back` allocates id `1` — which collides with the
still-live very first handle: the `emplace` silently fails, and the returned
handle resolves to the first element (dense position `0`), not to the value
just inserted. -/
theorem lightPushN_wrap_lookup :
    (((lightPushN W).push_back 999).1).lookup (((lightPushN W).push_back 999).2) =
      some 0 := by
  have hstate := lightPushN_eq W (Nat.le_refl W)
  have h01 : (0 + 1) % W = 1 := by decide
  have hcol : alookup (lightPushN W).sparse_to_dense
      (((lightPushN W).internalIdCounter + 1) % W) = some 0 := by
    rw [hstate, LightFlatValueMap.mk_sparse, LightFlatValueMap.mk_counter,
      Nat.mod_self, h01]
    exact alookup_map_range_head (by norm_num [W]) (by decide)
  have h0lt : (0 : Nat) < (lightPushN W).dense_vector.length := by
    rw [hstate, LightFlatValueMap.mk_dense, List.length_range]
    norm_num [W]
  rw [LightFlatValueMap.push_back_collision_lookup hcol h0lt, hstate,
    LightFlatValueMap.mk_dense]
  rw [List.getElem?_eq_getElem (by rw [List.length_range]; norm_num [W]),
    List.getElem_range]

/-- Explicit results of the light erase in its two branches (no swap needed
for the back element; swap plus scan fix-up otherwise). -/
theorem LightFlatValueMap.erase_explicit_eq {α : Type}
    {lm : LightFlatValueMap α} {h p : Nat}
    (hh : alookup lm.sparse_to_dense h = some p) :
    (p = lm.dense_vector.length - 1 →
      lm.erase h = some ⟨aerase lm.sparse_to_dense h,
        lm.dense_vector.dropLast, lm.internalIdCounter⟩) ∧
    (∀ bh, p ≠ lm.dense_vector.length - 1 →
      lm.dense_to_sparse (lm.dense_vector.length - 1) = some bh →
      lm.erase h = some ⟨aerase (asetFirstByValue lm.sparse_to_dense
          (lm.dense_vector.length - 1) p) h,
        (lswap lm.dense_vector p (lm.dense_vector.length - 1)).dropLast,
        lm.internalIdCounter⟩) := by
  constructor
  · intro hp
    unfold erase
    simp only [hh]
    rw [if_pos hp]
  · intro bh hp hscan
    unfold erase
    simp only [hh]
    rw [if_neg hp]
    simp only [hscan]

/-! ## The claims -/

/-- Claim C1: for every container state and every live handle `h` whose
element sits at dense position `p` with `p` not the last position, after
`erase(h)` the element that was formerly at the last position is stored at
position `p`, and looking it up through its original handle still yields
that element — in both the fast-erase and the light variant. -/
theorem claim_C1_swap_correctness (α : Type) :
    (∀ (m m' : FlatValueMap α) (h h2 p : Nat), m.Inv →
      alookup m.sparse_to_dense h = some p →
      alookup m.sparse_to_dense h2 = some (m.dense_vector.length - 1) →
      p ≠ m.dense_vector.length - 1 →
      m.erase h = some m' →
      alookup m'.sparse_to_dense h2 = some p ∧
      m'.dense_vector[p]? = m.dense_vector[m.dense_vector.length - 1]? ∧
      m'.lookup h2 = m.dense_vector[m.dense_vector.length - 1]?) ∧
    (∀ (lm lm' : LightFlatValueMap α) (h h2 p : Nat), lm.Inv →
      alookup lm.sparse_to_dense h = some p →
      alookup lm.sparse_to_dense h2 = some (lm.dense_vector.length - 1) →
      p ≠ lm.dense_vector.length - 1 →
      lm.erase h = some lm' →
      alookup lm'.sparse_to_dense h2 = some p ∧
      lm'.dense_vector[p]? = lm.dense_vector[lm.dense_vector.length - 1]? ∧
      lm'.lookup h2 = lm.dense_vector[lm.dense_vector.length - 1]?) := by
  constructor
  · intro m m' h h2 p hInv hh hh2 hp hm'
    obtain ⟨bh, m2, hbhs, her, hlen, hnds, hndd, hsparse, hdts, hdense, hcache, hctr⟩ :=
      FlatValueMap.erase_spec hInv hh
    rw [her] at hm'
    cases hm'
    have hlt : p < m.dense_vector.length := hInv.lt hh
    have hh2ne : h2 ≠ h := by
      intro he
      rw [he, hh] at hh2
      exact hp (Option.some_injective _ hh2)
    have hs2 : alookup m'.sparse_to_dense h2 = some p := by
      rw [hsparse h2, if_neg hh2ne, if_pos hh2]
    refine ⟨hs2, ?_, ?_⟩
    · rw [hdense p, if_pos (by omega), if_pos rfl]
    · unfold FlatValueMap.lookup
      rw [hs2]
      show m'.dense_vector[p]? = m.dense_vector[m.dense_vector.length - 1]?
      rw [hdense p, if_pos (by omega), if_pos rfl]
  · intro lm lm' h h2 p hInv hh hh2 hp hm'
    obtain ⟨hlen, hW', hchar, hdense, hctr⟩ :=
      LightFlatValueMap.erase_spec_light hInv.weak hh hm'
    have hlt : p < lm.dense_vector.length := hInv.weak.lt_light hh
    have hh2ne : h2 ≠ h := by
      intro he
      rw [he, hh] at hh2
      exact hp (Option.some_injective _ hh2)
    have hs2 : alookup lm'.sparse_to_dense h2 = some p := by
      rw [hchar h2, if_neg hh2ne, if_pos hh2]
    refine ⟨hs2, ?_, ?_⟩
    · rw [hdense p, if_pos (by omega), if_pos rfl]
    · unfold LightFlatValueMap.lookup
      rw [hs2]
      show lm'.dense_vector[p]? = lm.dense_vector[lm.dense_vector.length - 1]?
      rw [hdense p, if_pos (by omega), if_pos rfl]

theorem claim_C1_witness :
    (⟨[(1, 0), (2, 1), (3, 2), (4, 3)], [(0, 1), (1, 2), (2, 3), (3, 4)],
      [10, 20, 30, 40], some (4, 3), 4⟩ : FlatValueMap Nat).Inv ∧
    (alookup ([(1, 0), (2, 1), (3, 2), (4, 3)] : List (Nat × Nat)) 2 = some 1 ∧
     alookup ([(1, 0), (2, 1), (3, 2), (4, 3)] : List (Nat × Nat)) 4 = some 3) ∧
    (alookup ([(1, 0), (3, 2), (4, 1)] : List (Nat × Nat)) 4 = some 1 ∧
     FlatValueMap.lookup (⟨[(1, 0), (3, 2), (4, 1)], [(0, 1), (1, 4), (2, 3)],
        [10, 40, 30], none, 4⟩ : FlatValueMap Nat) 4 = some 40) := by
  have h := (claim_C1_swap_correctness Nat).1
    ⟨[(1, 0), (2, 1), (3, 2), (4, 3)], [(0, 1), (1, 2), (2, 3), (3, 4)],
      [10, 20, 30, 40], some (4, 3), 4⟩
    ⟨[(1, 0), (3, 2), (4, 1)], [(0, 1), (1, 4), (2, 3)], [10, 40, 30], none, 4⟩
    2 4 1 (by decide) (by decide) (by decide) (by decide) (by decide)
  exact ⟨by decide, ⟨by decide, by decide⟩, h.1, h.2.2⟩

/-- Claim C2: after `erase(h)` of a live handle, `contains(h)` is false and
every other previously live handle still resolves to its original value —
in both variants. -/
theorem claim_C2_erase_completeness (α : Type) :
    (∀ (m : FlatValueMap α) (h : Nat), m.Inv → m.contains h = true →
      ∃ m', m.erase h = some m' ∧ m'.contains h = false ∧
        ∀ x, x ≠ h → m'.lookup x = m.lookup x) ∧
    (∀ (lm : LightFlatValueMap α) (h : Nat), lm.Inv → lm.contains h = true →
      ∃ lm', lm.erase h = some lm' ∧ lm'.contains h = false ∧
        ∀ x, x ≠ h → lm'.lookup x = lm.lookup x) := by
  constructor
  · intro m h hInv hc
    obtain ⟨p, hp⟩ := Option.isSome_iff_exists.1 hc
    obtain ⟨bh, m', hbhs, her, _, _, _, _, _, _, _, _⟩ :=
      FlatValueMap.erase_spec hInv hp
    exact ⟨m', her, FlatValueMap.erase_contains_self hInv her,
      fun x hx => FlatValueMap.erase_lookup_ne hInv her hx⟩
  · intro lm h hInv hc
    obtain ⟨p, hp⟩ := Option.isSome_iff_exists.1 hc
    obtain ⟨lm', her⟩ := LightFlatValueMap.erase_isSome hInv hp
    exact ⟨lm', her, LightFlatValueMap.erase_contains_self_light hInv.weak her,
      fun x hx => LightFlatValueMap.erase_lookup_ne_light hInv.weak her hx⟩

theorem claim_C2_witness :
    ((⟨[(1, 0), (2, 1), (3, 2)], [(0, 1), (1, 2), (2, 3)], [10, 20, 30],
        some (3, 2), 3⟩ : FlatValueMap Nat).Inv ∧
     (⟨[(1, 0), (2, 1), (3, 2)], [10, 20, 30], 3⟩ : LightFlatValueMap Nat).Inv) ∧
    (∃ m', FlatValueMap.erase (⟨[(1, 0), (2, 1), (3, 2)],
        [(0, 1), (1, 2), (2, 3)], [10, 20, 30], some (3, 2), 3⟩ :
        FlatValueMap Nat) 1 = some m' ∧ m'.contains 1 = false ∧
      ∀ x, x ≠ 1 → m'.lookup x =
        FlatValueMap.lookup (⟨[(1, 0), (2, 1), (3, 2)],
          [(0, 1), (1, 2), (2, 3)], [10, 20, 30], some (3, 2), 3⟩ :
          FlatValueMap Nat) x) ∧
    (∃ lm', LightFlatValueMap.erase (⟨[(1, 0), (2, 1), (3, 2)],
        [10, 20, 30], 3⟩ : LightFlatValueMap Nat) 1 = some lm' ∧
      lm'.contains 1 = false ∧
      ∀ x, x ≠ 1 → lm'.lookup x =
        LightFlatValueMap.lookup (⟨[(1, 0), (2, 1), (3, 2)],
          [10, 20, 30], 3⟩ : LightFlatValueMap Nat) x) :=
  ⟨⟨by decide, by decide⟩,
   (claim_C2_erase_completeness Nat).1 _ 1 (by decide) (by decide),
   (claim_C2_erase_completeness Nat).2 _ 1 (by decide) (by decide)⟩

/-- Claim C3: the Sparse/Reverse Index bijection (with full consistency
against the dense vector) holds in the empty fast-erase container and is
preserved by every successful `push_back`/`emplace_back`, every successful
`erase` overload, and `clear`. -/
theorem claim_C3_bijection_invariant (α : Type) :
    (FlatValueMap.empty (α := α)).Inv ∧
    (∀ (m m' : FlatValueMap α) (v : α) (id : Nat), m.Inv →
      m.push_back v = some (m', id) → m'.Inv) ∧
    (∀ (m m' : FlatValueMap α) (h : Nat), m.Inv → m.erase h = some m' → m'.Inv) ∧
    (∀ (m m' : FlatValueMap α) (pos : Nat), m.Inv → m.eraseAt pos = some m' → m'.Inv) ∧
    (∀ (m m' : FlatValueMap α) (a b : Nat), m.Inv → m.eraseRange a b = some m' → m'.Inv) ∧
    (∀ m : FlatValueMap α, m.Inv → m.clear.Inv) := by
  refine ⟨?_, ?_, ?_, ?_, ?_, ?_⟩
  · refine ⟨List.nodup_nil, List.nodup_nil, ?_, ?_, ?_, ?_, ?_⟩
    · rintro ⟨x, q⟩ hmem; cases hmem
    · rintro ⟨x, q⟩ hmem; cases hmem
    · rintro ⟨x, q⟩ hmem; cases hmem
    · intro q hq
      simp only [FlatValueMap.empty, List.length_nil] at hq
      cases hq
    · intro c hc
      cases hc
  · exact fun m m' v id hInv h => FlatValueMap.push_back_inv hInv h
  · exact fun m m' h hInv he => FlatValueMap.erase_inv hInv he
  · exact fun m m' pos hInv he => FlatValueMap.eraseAt_inv hInv he
  · exact fun m m' a b hInv he => FlatValueMap.eraseRange_inv hInv he
  · exact fun m _ => FlatValueMap.clear_inv m

/-- Claim C4 counterexample: the claim asserts the identifier counter
strictly increases with every insertion and a handle value is never issued
twice within the allocator's lifetime.  On the concrete run that alternates
`push_back` and `erase` of the returned handle (every call succeeding), the
first insertion issues handle id `1`; the `2 ^ 32 - 1`-st insertion leaves
the counter at `2 ^ 32 - 1` but the `2 ^ 32`-nd insertion wraps the 32-bit
counter down to `0`, and the `2 ^ 32 + 1`-st insertion issues handle id `1`
again. -/
theorem claim_C4_counterexample :
    issuedAt 1 = some 1 ∧
    issuedAt (2 ^ 32 + 1) = some 1 ∧
    (2 ^ 32 + 1 : Nat) ≠ 1 ∧
    issuedAt (2 ^ 32 - 1) = some (2 ^ 32 - 1) ∧
    issuedAt (2 ^ 32) = some 0 := by
  refine ⟨?_, ?_, by decide, ?_, ?_⟩
  · rw [issuedAt_eq]
    congr 1
  · rw [issuedAt_eq]
    congr 1
  · rw [issuedAt_eq]
    congr 1
  · rw [issuedAt_eq]
    congr 1

/-- Claim C4 (amended): as long as at most `2 ^ 32` insertions have been
performed, no two handles issued by insertions on a fast-erase container of
a given element type compare equal — the 32-bit counter has not yet wrapped
— and `clear()` does not reset the identifier counter. -/
theorem claim_C4_handle_uniqueness (α : Type) :
    (∀ (ops : List (Op α)) (m' : FlatValueMap α) (hs : List Nat),
      FlatValueMap.empty.runLog ops = some (m', hs) →
      hs.length ≤ 2 ^ 32 → hs.Nodup) ∧
    (∀ m : FlatValueMap α, m.clear.internalIdCounter = m.internalIdCounter) :=
  ⟨fun _ _ _ h hlen => FlatValueMap.runLog_issued_nodup h hlen, fun _ => rfl⟩

theorem claim_C4_witness :
    (FlatValueMap.empty.runLog
      [Op.pushOp 5, Op.clearOp, Op.pushOp 6, Op.eraseOp 2, Op.pushOp 7] =
      some (⟨[(3, 0)], [(0, 3)], [7], some (3, 0), 3⟩, [1, 2, 3]) ∧
     ([1, 2, 3] : List Nat).length ≤ 2 ^ 32) ∧
    ([1, 2, 3] : List Nat).Nodup ∧
    (FlatValueMap.clear (⟨[(1, 0)], [(0, 1)], [9], some (1, 0), 1⟩ :
      FlatValueMap Nat)).internalIdCounter =
      (⟨[(1, 0)], [(0, 1)], [9], some (1, 0), 1⟩ :
        FlatValueMap Nat).internalIdCounter :=
  ⟨⟨by decide, by decide⟩,
   (claim_C4_handle_uniqueness Nat).1
     [Op.pushOp 5, Op.clearOp, Op.pushOp 6, Op.eraseOp 2, Op.pushOp 7]
     ⟨[(3, 0)], [(0, 3)], [7], some (3, 0), 3⟩ [1, 2, 3]
     (by decide) (by decide),
   (claim_C4_handle_uniqueness Nat).2 _⟩

/-- Claim C5: given a fast-erase container and a light container holding the
same sparse map and the same dense vector, erasing the same live handle in
the light variant — which discovers the owner of the last slot by the linear
scan — succeeds and produces the same sparse map, the same dense vector, the
same size, and the same lookup and contains results as the fast-erase
variant's erase. -/
theorem claim_C5_light_erase_equivalence (α : Type) :
    ∀ (m m' : FlatValueMap α) (lm : LightFlatValueMap α) (h p : Nat),
      m.Inv → lm.sparse_to_dense = m.sparse_to_dense →
      lm.dense_vector = m.dense_vector →
      alookup m.sparse_to_dense h = some p → m.erase h = some m' →
      ∃ lm', lm.erase h = some lm' ∧
        lm'.sparse_to_dense = m'.sparse_to_dense ∧
        lm'.dense_vector = m'.dense_vector ∧
        lm'.size = m'.size ∧
        (∀ x, lm'.lookup x = m'.lookup x) ∧
        (∀ x, lm'.contains x = m'.contains x) := by
  intro m m' lm h p hInv hsp hd hh hm'
  have hvals : (m.sparse_to_dense.map Prod.snd).Nodup :=
    vals_nodup_of_inj hInv.std_nodup (fun x y q hx hy => hInv.inj hx hy)
  obtain ⟨bh, hbhs, hbhd, hcase, hctr⟩ := FlatValueMap.erase_explicit hInv hh hm'
  have hlm : alookup lm.sparse_to_dense h = some p := by
    rw [hsp]
    exact hh
  rcases hcase with ⟨hp_eq, hs', hd'⟩ | ⟨hp_ne, hs', hd'⟩
  · have her := (LightFlatValueMap.erase_explicit_eq hlm).1 (by rw [hd]; exact hp_eq)
    have hsp2 : aerase lm.sparse_to_dense h = m'.sparse_to_dense := by
      rw [hsp, hs']
    have hd2 : lm.dense_vector.dropLast = m'.dense_vector := by
      rw [hd, hd']
    refine ⟨_, her, hsp2, hd2, ?_, ?_, ?_⟩
    · show (lm.dense_vector.dropLast).length = m'.dense_vector.length
      rw [hd2]
    · exact light_lookup_congr hsp2 hd2
    · exact light_contains_congr hsp2
  · have hmem_bh := mem_of_alookup_eq_some hbhs
    have hscan : lm.dense_to_sparse (lm.dense_vector.length - 1) = some bh := by
      unfold LightFlatValueMap.dense_to_sparse
      rw [hsp, hd]
      have hsome := afindByValue_isSome_of_mem hmem_bh
      obtain ⟨k, hk⟩ := Option.isSome_iff_exists.1 hsome
      rw [hk]
      congr 1
      exact snd_inj_of_nodup hvals (mem_of_afindByValue_eq_some hk) hmem_bh
    have her := (LightFlatValueMap.erase_explicit_eq hlm).2 bh
      (by rw [hd]; exact hp_ne) hscan
    have hsp2 : aerase (asetFirstByValue lm.sparse_to_dense
        (lm.dense_vector.length - 1) p) h = m'.sparse_to_dense := by
      rw [hsp, hd, hs',
        asetFirstByValue_eq_aset hInv.std_nodup hvals hmem_bh]
    have hd2 : (lswap lm.dense_vector p (lm.dense_vector.length - 1)).dropLast =
        m'.dense_vector := by
      rw [hd, hd']
    refine ⟨_, her, hsp2, hd2, ?_, ?_, ?_⟩
    · show ((lswap lm.dense_vector p (lm.dense_vector.length - 1)).dropLast).length =
        m'.dense_vector.length
      rw [hd2]
    · exact light_lookup_congr hsp2 hd2
    · exact light_contains_congr hsp2

theorem claim_C5_witness :
    ((⟨[(1, 0), (2, 1)], [(0, 1), (1, 2)], [10, 20], some (2, 1), 2⟩ :
        FlatValueMap Nat).Inv ∧
     FlatValueMap.erase (⟨[(1, 0), (2, 1)], [(0, 1), (1, 2)], [10, 20],
        some (2, 1), 2⟩ : FlatValueMap Nat) 1 =
      some ⟨[(2, 0)], [(0, 2)], [20], none, 2⟩) ∧
    (∃ lm', LightFlatValueMap.erase (⟨[(1, 0), (2, 1)], [10, 20], 2⟩ :
        LightFlatValueMap Nat) 1 = some lm' ∧
      lm'.sparse_to_dense = [(2, 0)] ∧
      lm'.dense_vector = [20] ∧
      lm'.size = (⟨[(2, 0)], [(0, 2)], [20], none, 2⟩ : FlatValueMap Nat).size ∧
      (∀ x, lm'.lookup x =
        FlatValueMap.lookup (⟨[(2, 0)], [(0, 2)], [20], none, 2⟩ :
          FlatValueMap Nat) x) ∧
      (∀ x, lm'.contains x =
        FlatValueMap.contains (⟨[(2, 0)], [(0, 2)], [20], none, 2⟩ :
          FlatValueMap Nat) x)) := by
  have h := claim_C5_light_erase_equivalence Nat
    ⟨[(1, 0), (2, 1)], [(0, 1), (1, 2)], [10, 20], some (2, 1), 2⟩
    ⟨[(2, 0)], [(0, 2)], [20], none, 2⟩
    ⟨[(1, 0), (2, 1)], [10, 20], 2⟩ 1 0
    (by decide) rfl rfl (by decide) (by decide)
  exact ⟨⟨by decide, by decide⟩, h⟩

/-- Claim C6 counterexample: in the light variant, after `2 ^ 32` insertions
without any erase or clear, the next insertion of the value `999` returns a
handle whose immediate lookup yields `0` (the value of the very first,
still-live element), not `999` — the wrapped 32-bit counter reissued a live
id and the `emplace` silently failed. -/
theorem claim_C6_counterexample :
    (((lightPushN W).push_back 999).1).lookup
      (((lightPushN W).push_back 999).2) = some 0 ∧
    (some 0 : Option Nat) ≠ some 999 :=
  ⟨lightPushN_wrap_lookup, by decide⟩

/-- Claim C6 (amended): for a handle `h` returned by inserting `v`,
`lookup(h) == v` keeps holding across any further operation sequence that
does not erase `h` and does not clear the container — unconditionally for
the fast-erase variant (whose asserting emplace aborts a colliding insert),
and for the light variant provided every insertion allocates a fresh id,
which is guaranteed while fewer than `2 ^ 32` insertions have been performed
for the element type. -/
theorem claim_C6_round_trip (α : Type) :
    (∀ (m m₁ m₂ : FlatValueMap α) (v : α) (h : Nat) (ops : List (Op α)),
      m.Inv → m.push_back v = some (m₁, h) →
      Op.eraseOp h ∉ ops → Op.clearOp ∉ ops →
      m₁.run ops = some m₂ → m₂.lookup h = some v) ∧
    (∀ (lm : LightFlatValueMap α) (lm₂ : LightFlatValueMap α) (v : α)
        (r : LightFlatValueMap α × Nat) (ops : List (Op α)),
      lm.WeakInv → lm.push_back_fresh v = some r →
      Op.eraseOp r.2 ∉ ops → Op.clearOp ∉ ops →
      r.1.runFresh ops = some lm₂ → lm₂.lookup r.2 = some v) := by
  constructor
  · intro m m₁ m₂ v h ops hInv hpush hne hnc hrun
    exact FlatValueMap.run_keeps_lookup (FlatValueMap.push_back_inv hInv hpush)
      (FlatValueMap.push_back_lookup_self hpush) hne hnc hrun
  · intro lm lm₂ v r ops hW hpush hne hnc hrun
    obtain ⟨hr, hself⟩ := LightFlatValueMap.push_back_fresh_spec hpush
    have hW1 : r.1.WeakInv := by
      rw [hr]
      exact LightFlatValueMap.push_back_weakInv hW
    exact LightFlatValueMap.runFresh_keeps_lookup hW1 hself hne hnc hrun

theorem claim_C6_witness :
    ((FlatValueMap.empty (α := Nat)).Inv ∧
     (FlatValueMap.empty (α := Nat)).push_back 5 =
       some (⟨[(1, 0)], [(0, 1)], [5], some (1, 0), 1⟩, 1) ∧
     Op.eraseOp 1 ∉ [Op.pushOp 7, Op.eraseOp 2] ∧
     Op.clearOp ∉ ([Op.pushOp 7, Op.eraseOp 2] : List (Op Nat)) ∧
     FlatValueMap.run (⟨[(1, 0)], [(0, 1)], [5], some (1, 0), 1⟩ :
       FlatValueMap Nat) [Op.pushOp 7, Op.eraseOp 2] =
       some ⟨[(1, 0)], [(0, 1)], [5], none, 2⟩) ∧
    FlatValueMap.lookup (⟨[(1, 0)], [(0, 1)], [5], none, 2⟩ :
      FlatValueMap Nat) 1 = some 5 ∧
    ((LightFlatValueMap.empty (α := Nat)).push_back_fresh 5 =
       some (⟨[(1, 0)], [5], 1⟩, 1) ∧
     LightFlatValueMap.runFresh (⟨[(1, 0)], [5], 1⟩ : LightFlatValueMap Nat)
       [Op.pushOp 7] = some ⟨[(1, 0), (2, 1)], [5, 7], 2⟩) ∧
    LightFlatValueMap.lookup (⟨[(1, 0), (2, 1)], [5, 7], 2⟩ :
      LightFlatValueMap Nat) 1 = some 5 :=
  ⟨⟨by decide, by decide, by decide, by decide, by decide⟩,
   (claim_C6_round_trip Nat).1 FlatValueMap.empty
     ⟨[(1, 0)], [(0, 1)], [5], some (1, 0), 1⟩
     ⟨[(1, 0)], [(0, 1)], [5], none, 2⟩ 5 1 [Op.pushOp 7, Op.eraseOp 2]
     (by decide) (by decide) (by decide) (by decide) (by decide),
   ⟨by decide, by decide⟩,
   (claim_C6_round_trip Nat).2 LightFlatValueMap.empty
     ⟨[(1, 0), (2, 1)], [5, 7], 2⟩ 5 (⟨[(1, 0)], [5], 1⟩, 1) [Op.pushOp 7]
     (by decide) (by decide) (by decide) (by decide) (by decide)⟩

/-- Claim C7: in the fast-erase variant, `erase(first, last)` first resolves
every position of the half-open range to its handle and only then erases; on
the container built by inserting `10, 20, 30, 40` (handles `1..4`), erasing
the range covering positions `1` and `2` (the elements `20` and `30`) leaves
exactly the elements `10` and `40`, each still retrievable by its original
handle. -/
theorem claim_C7_range_erase :
    FlatValueMap.run (FlatValueMap.empty (α := Nat))
      [Op.pushOp 10, Op.pushOp 20, Op.pushOp 30, Op.pushOp 40] =
      some ⟨[(1, 0), (2, 1), (3, 2), (4, 3)], [(0, 1), (1, 2), (2, 3), (3, 4)],
        [10, 20, 30, 40], some (4, 3), 4⟩ ∧
    FlatValueMap.eraseRange (⟨[(1, 0), (2, 1), (3, 2), (4, 3)],
        [(0, 1), (1, 2), (2, 3), (3, 4)], [10, 20, 30, 40], some (4, 3), 4⟩ :
        FlatValueMap Nat) 1 2 =
      some ⟨[(1, 0), (4, 1)], [(0, 1), (1, 4)], [10, 40], none, 4⟩ ∧
    (⟨[(1, 0), (4, 1)], [(0, 1), (1, 4)], [10, 40], none, 4⟩ :
      FlatValueMap Nat).size = 2 ∧
    FlatValueMap.lookup (⟨[(1, 0), (4, 1)], [(0, 1), (1, 4)], [10, 40],
      none, 4⟩ : FlatValueMap Nat) 1 = some 10 ∧
    FlatValueMap.lookup (⟨[(1, 0), (4, 1)], [(0, 1), (1, 4)], [10, 40],
      none, 4⟩ : FlatValueMap Nat) 4 = some 40 ∧
    FlatValueMap.contains (⟨[(1, 0), (4, 1)], [(0, 1), (1, 4)], [10, 40],
      none, 4⟩ : FlatValueMap Nat) 2 = false ∧
    FlatValueMap.contains (⟨[(1, 0), (4, 1)], [(0, 1), (1, 4)], [10, 40],
      none, 4⟩ : FlatValueMap Nat) 3 = false := by
  decide

/-- Claim C8: calling `erase` with a handle that is not currently in the
Sparse Index (for instance one already erased) hits the
`assert(... != sparse_to_dense.end())` contract check — the embedded
operation aborts (`none`) rather than returning normally — in both variants. -/
theorem claim_C8_double_erase_asserts (α : Type) :
    (∀ (m : FlatValueMap α) (h : Nat), alookup m.sparse_to_dense h = none →
      m.erase h = none) ∧
    (∀ (lm : LightFlatValueMap α) (h : Nat), alookup lm.sparse_to_dense h = none →
      lm.erase h = none) := by
  constructor
  · intro m h hnone
    unfold FlatValueMap.erase
    rw [hnone]
  · intro lm h hnone
    unfold LightFlatValueMap.erase
    rw [hnone]

theorem claim_C8_witness :
    (FlatValueMap.erase (⟨[(1, 0)], [(0, 1)], [7], some (1, 0), 1⟩ :
       FlatValueMap Nat) 1 = some ⟨[], [], [], none, 1⟩ ∧
     alookup (⟨[], [], [], none, 1⟩ : FlatValueMap Nat).sparse_to_dense 1 =
       none ∧
     LightFlatValueMap.erase (⟨[(1, 0)], [7], 1⟩ : LightFlatValueMap Nat) 1 =
       some ⟨[], [], 1⟩ ∧
     alookup (⟨[], [], 1⟩ : LightFlatValueMap Nat).sparse_to_dense 1 = none) ∧
    FlatValueMap.erase (⟨[], [], [], none, 1⟩ : FlatValueMap Nat) 1 = none ∧
    LightFlatValueMap.erase (⟨[], [], 1⟩ : LightFlatValueMap Nat) 1 = none :=
  ⟨⟨by decide, by decide, by decide, by decide⟩,
   (claim_C8_double_erase_asserts Nat).1 ⟨[], [], [], none, 1⟩ 1 (by decide),
   (claim_C8_double_erase_asserts Nat).2 ⟨[], [], 1⟩ 1 (by decide)⟩

/-- Claim C9 (frame property of erase): erasing the live handle `h` at
position `p` touches only position `p`, the last position, and the entries
for `h` and for the moved back element; every other dense slot keeps its
value, every other handle keeps its Sparse Index entry, and (fast-erase
variant) every other position keeps its Reverse Index entry. -/
theorem claim_C9_erase_frame (α : Type) :
    (∀ (m m' : FlatValueMap α) (h p : Nat), m.Inv →
      alookup m.sparse_to_dense h = some p → m.erase h = some m' →
      (∀ q, q ≠ p → q ≠ m.dense_vector.length - 1 →
        m'.dense_vector[q]? = m.dense_vector[q]?) ∧
      (∀ x, x ≠ h →
        alookup m.sparse_to_dense x ≠ some (m.dense_vector.length - 1) →
        alookup m'.sparse_to_dense x = alookup m.sparse_to_dense x) ∧
      (∀ q, q ≠ p → q ≠ m.dense_vector.length - 1 →
        alookup m'.dense_to_sparse q = alookup m.dense_to_sparse q)) ∧
    (∀ (lm lm' : LightFlatValueMap α) (h p : Nat), lm.WeakInv →
      alookup lm.sparse_to_dense h = some p → lm.erase h = some lm' →
      (∀ q, q ≠ p → q ≠ lm.dense_vector.length - 1 →
        lm'.dense_vector[q]? = lm.dense_vector[q]?) ∧
      (∀ x, x ≠ h →
        alookup lm.sparse_to_dense x ≠ some (lm.dense_vector.length - 1) →
        alookup lm'.sparse_to_dense x = alookup lm.sparse_to_dense x)) := by
  constructor
  · intro m m' h p hInv hh hm'
    obtain ⟨bh, m2, hbhs, her, hlen, hnds, hndd, hsparse, hdts, hdense, hcache, hctr⟩ :=
      FlatValueMap.erase_spec hInv hh
    rw [her] at hm'
    cases hm'
    refine ⟨?_, ?_, ?_⟩
    · intro q hqp hql
      rw [hdense q]
      by_cases hq : q < m.dense_vector.length - 1
      · rw [if_pos hq, if_neg hqp]
      · rw [if_neg hq, List.getElem?_eq_none (by omega)]
    · intro x hx hxl
      rw [hsparse x, if_neg hx, if_neg hxl]
    · intro q hqp hql
      rw [hdts q, if_neg hql, if_neg hqp]
  · intro lm lm' h p hW hh hm'
    obtain ⟨hlen, hW', hchar, hdense, hctr⟩ :=
      LightFlatValueMap.erase_spec_light hW hh hm'
    refine ⟨?_, ?_⟩
    · intro q hqp hql
      rw [hdense q]
      by_cases hq : q < lm.dense_vector.length - 1
      · rw [if_pos hq, if_neg hqp]
      · rw [if_neg hq, List.getElem?_eq_none (by omega)]
    · intro x hx hxl
      rw [hchar x, if_neg hx, if_neg hxl]

theorem claim_C9_witness :
    ((⟨[(1, 0), (2, 1), (3, 2)], [(0, 1), (1, 2), (2, 3)], [10, 20, 30],
        some (3, 2), 3⟩ : FlatValueMap Nat).Inv ∧
     alookup ([(1, 0), (2, 1), (3, 2)] : List (Nat × Nat)) 1 = some 0 ∧
     FlatValueMap.erase (⟨[(1, 0), (2, 1), (3, 2)], [(0, 1), (1, 2), (2, 3)],
        [10, 20, 30], some (3, 2), 3⟩ : FlatValueMap Nat) 1 =
       some ⟨[(2, 1), (3, 0)], [(0, 3), (1, 2)], [30, 20], none, 3⟩) ∧
    ((⟨[(2, 1), (3, 0)], [(0, 3), (1, 2)], [30, 20], none, 3⟩ :
        FlatValueMap Nat).dense_vector[1]? =
      (⟨[(1, 0), (2, 1), (3, 2)], [(0, 1), (1, 2), (2, 3)], [10, 20, 30],
        some (3, 2), 3⟩ : FlatValueMap Nat).dense_vector[1]? ∧
     alookup ([(2, 1), (3, 0)] : List (Nat × Nat)) 2 =
       alookup ([(1, 0), (2, 1), (3, 2)] : List (Nat × Nat)) 2 ∧
     alookup ([(0, 3), (1, 2)] : List (Nat × Nat)) 1 =
       alookup ([(0, 1), (1, 2), (2, 3)] : List (Nat × Nat)) 1) := by
  have h := (claim_C9_erase_frame Nat).1
    ⟨[(1, 0), (2, 1), (3, 2)], [(0, 1), (1, 2), (2, 3)], [10, 20, 30],
      some (3, 2), 3⟩
    ⟨[(2, 1), (3, 0)], [(0, 3), (1, 2)], [30, 20], none, 3⟩ 1 0
    (by decide) (by decide) (by decide)
  exact ⟨⟨by decide, by decide, by decide⟩,
    h.1 1 (by decide) (by decide), h.2.1 2 (by decide) (by decide),
    h.2.2 1 (by decide) (by decide)⟩

/-- Claim C10: with the assertion compiled out, the light variant's erase of
a handle absent from the Sparse Index is still guarded by the explicit
`if (sparse_to_dense_it != sparse_to_dense.end())` check and returns with
the container completely unchanged. -/
theorem claim_C10_light_dead_erase_noop (α : Type) :
    ∀ (lm : LightFlatValueMap α) (h : Nat),
      alookup lm.sparse_to_dense h = none → lm.eraseRelease h = lm := by
  intro lm h hnone
  unfold LightFlatValueMap.eraseRelease
  rw [hnone]

theorem claim_C10_witness :
    alookup (⟨[(1, 0), (2, 1)], [10, 20], 2⟩ :
      LightFlatValueMap Nat).sparse_to_dense 99 = none ∧
    LightFlatValueMap.eraseRelease (⟨[(1, 0), (2, 1)], [10, 20], 2⟩ :
      LightFlatValueMap Nat) 99 = ⟨[(1, 0), (2, 1)], [10, 20], 2⟩ :=
  ⟨by decide, claim_C10_light_dead_erase_noop Nat ⟨[(1, 0), (2, 1)], [10, 20], 2⟩
    99 (by decide)⟩

theorem claim_C3_witness :
    ((⟨[(1, 0), (2, 1)], [(0, 1), (1, 2)], [10, 20], some (2, 1), 2⟩ :
        FlatValueMap Nat).Inv ∧
     FlatValueMap.push_back (⟨[(1, 0), (2, 1)], [(0, 1), (1, 2)], [10, 20],
        some (2, 1), 2⟩ : FlatValueMap Nat) 30 =
      some (⟨[(1, 0), (2, 1), (3, 2)], [(0, 1), (1, 2), (2, 3)],
        [10, 20, 30], some (3, 2), 3⟩, 3)) ∧
    (⟨[(1, 0), (2, 1), (3, 2)], [(0, 1), (1, 2), (2, 3)], [10, 20, 30],
        some (3, 2), 3⟩ : FlatValueMap Nat).Inv :=
  ⟨⟨by decide, by decide⟩,
   (claim_C3_bijection_invariant Nat).2.1
     ⟨[(1, 0), (2, 1)], [(0, 1), (1, 2)], [10, 20], some (2, 1), 2⟩
     ⟨[(1, 0), (2, 1), (3, 2)], [(0, 1), (1, 2), (2, 3)], [10, 20, 30],
       some (3, 2), 3⟩ 30 3 (by decide) (by decide)⟩

end Cof
